import Mathlib

/-!
The package `ratecounter`: a sliding-window rate counter.

A shallow embedding of `ratecounter.go` (package `ratecounter`).

* Go `int64` values are integers kept in `[-2^63, 2^63)` by `wrap64`; the
  `int32` index `current` is kept in `[-2^31, 2^31)` by `wrap32`; `int` is the
  64-bit machine integer of the usual platforms.
* A method with a pointer receiver becomes a function from the receiver's
  state to an `Outcome`: either the state after a normal return, or a panic
  together with the state the receiver has when the panic is raised.
* The goroutine started by `run` is a pair of atomic steps, `tick` (the body
  of `case <-ticker.C`) and `done` (the body of `case <-r.ctx.Done()`), and a
  count of the goroutines that are alive. A `tick` step is one delivery on
  `ticker.C`; the creation of the ticker, the first statement of the
  goroutine, is the separate step `startTicker`, and the times of the
  deliveries are those of the timed model (`timedTrace`).
* `make([]Counter, n)` panics for a length above `maxSliceLen`, the limit of
  the runtime on 64-bit platforms; below it the memory is taken to be there.
* A state is reachable when the steps that lead to it all return normally.
-/

/-! ## Machine integers -/

/-- The value of a Go `int64` computation whose mathematical result is `x`. -/
def wrap64 (x : Int) : Int :=
  (x + 9223372036854775808) % 18446744073709551616 - 9223372036854775808

/-- The conversion `int32(x)` of a Go integer. -/
def wrap32 (x : Int) : Int :=
  (x + 2147483648) % 4294967296 - 2147483648

/-! ## Panics -/

/-- The run-time panics `ratecounter.go` can raise. -/
inductive Panic where
  | resolutionLessThanOne
  | indexOutOfRange
  | divideByZero
  | nonPositiveInterval
  | makeSliceLenOutOfRange
  deriving DecidableEq, Repr

/-- Result of a call: normal return with the new state, or a panic with the
state reached when it was raised. -/
inductive Outcome (σ : Type) where
  | ok (s : σ)
  | panic (p : Panic) (s : σ)
  deriving DecidableEq, Repr

/-- Sequencing: a panic stops the run. -/
def Outcome.bind {σ : Type} (o : Outcome σ) (f : σ → Outcome σ) : Outcome σ :=
  match o with
  | .ok s => f s
  | .panic p s => .panic p s

/-! ## The accumulator -/

/-- Modelled from the spec: the type `Counter` used by `RateCounter` is declared
in a file of the package that is not among the sources; spec §3 and §4.1 give
it as a signed 64-bit integer `value`, created zeroed. -/
structure Counter where
  value : Int
  deriving DecidableEq, Repr

/-- Modelled from the spec: `Counter.Incr` is missing from the sources; spec
§4.1 `Add(delta)` adds `delta` to `value`, wrapping on 64-bit overflow. -/
def Counter.Incr (c : Counter) (val : Int) : Counter :=
  ⟨wrap64 (c.value + val)⟩

/-- Modelled from the spec: `Counter.Value` is missing from the sources; spec
§4.1 `Value()` reads and returns the current `value`. -/
def Counter.Value (c : Counter) : Int :=
  c.value

/-- Modelled from the spec: `Counter.Reset` is missing from the sources; spec
§4.1 `Reset()` sets `value` to 0. -/
def Counter.Reset (_c : Counter) : Counter :=
  ⟨0⟩

/-! ## The rate counter -/

/-- The struct `RateCounter`. `ctx` records whether `ctx.Done()` is closed;
`goroutines` is not a field of the struct: it counts the live goroutines that
`run` has started. -/
structure RateCounter where
  counter : Counter
  interval : Int
  resolution : Int
  partials : List Counter
  current : Int
  running : Int
  ctx : Bool
  goroutines : Nat
  deriving DecidableEq, Repr

/-- The slice access `xs[i]`: `none` when `i` is out of range. -/
def index {α : Type} (xs : List α) (i : Int) : Option α :=
  if 0 ≤ i ∧ i < xs.length then xs[i.toNat]? else none

/-- The largest length `make([]Counter, n)` accepts on a 64-bit platform: the
runtime refuses a slice of more than 2^48 bytes, and a `Counter` (a signed
64-bit integer, spec §3) takes 8 of them. -/
def maxSliceLen : Int := 35184372088832

/-- The built-in `make([]Counter, n)`: `n` zeroed counters, or `none` when the
runtime panics (`makeslice: len out of range`). A length the runtime accepts
is taken to be allocated: running out of memory is not a panic and is not
modelled. -/
def makeCounters (n : Int) : Option (List Counter) :=
  if n < 0 ∨ maxSliceLen < n then none else some (List.replicate n.toNat ⟨0⟩)

/-- `WithResolution`: panics when `resolution < 1`, before any assignment;
then assigns `resolution`, then the ring that `make` builds (or panics in
`make`, with `resolution` already assigned), then `current`. -/
def RateCounter.WithResolution (r : RateCounter) (resolution : Int) : Outcome RateCounter :=
  if resolution < 1 then
    .panic .resolutionLessThanOne r
  else
    let r1 := { r with resolution := resolution }
    match makeCounters resolution with
    | none => .panic .makeSliceLenOutOfRange r1
    | some ps => .ok { r1 with partials := ps, current := 0 }

/-- `NewRateCounter`: the zero struct with `interval`, `running` and `ctx`
set, passed through `WithResolution(20)`. -/
def NewRateCounter (ctx : Bool) (intrvl : Int) : Outcome RateCounter :=
  RateCounter.WithResolution
    { counter := ⟨0⟩, interval := intrvl, resolution := 0, partials := [],
      current := 0, running := 0, ctx := ctx, goroutines := 0 } 20

/-- `run`: the compare-and-swap of `running` from 0 to 1; the caller that wins
it starts the rotation goroutine. -/
def RateCounter.run (r : RateCounter) : RateCounter :=
  if r.running = 0 then
    { r with running := 1, goroutines := r.goroutines + 1 }
  else
    r

/-- The body of `case <-ticker.C` in the goroutine of `run`, as one atomic
step. Go's `%` truncates towards zero. -/
def RateCounter.tick (r : RateCounter) : Outcome RateCounter :=
  let current := r.current
  if r.resolution = 0 then
    .panic .divideByZero r
  else
    let next := Int.tmod (current + 1) r.resolution
    match index r.partials next with
    | none => .panic .indexOutOfRange r
    | some p =>
      let r1 := { r with counter := r.counter.Incr (wrap64 (-1 * p.Value)) }
      let r2 := { r1 with partials := r1.partials.set next.toNat p.Reset }
      .ok (if r2.current = current then { r2 with current := wrap32 next } else r2)

/-- The body of `case <-r.ctx.Done()` in the goroutine of `run`: the goroutine
stores `running = 0` and returns. -/
def RateCounter.done (r : RateCounter) : RateCounter :=
  { r with running := 0, goroutines := r.goroutines - 1 }

/-- Cancellation of the context given to `NewRateCounter` (done by its owner). -/
def RateCounter.cancel (r : RateCounter) : RateCounter :=
  { r with ctx := true }

/-- `Incr`: add to the total, add to the current bucket, then `run`. -/
def RateCounter.Incr (r : RateCounter) (val : Int) : Outcome RateCounter :=
  let r1 := { r with counter := r.counter.Incr val }
  match index r1.partials r1.current with
  | none => .panic .indexOutOfRange r1
  | some p =>
    .ok ({ r1 with partials := r1.partials.set r1.current.toNat (p.Incr val) }).run

/-- `Rate`: the value of the total. -/
def RateCounter.Rate (r : RateCounter) : Int :=
  r.counter.Value

/-- The library call `strconv.FormatInt(i, base)`, for the bases up to 16
(the code uses base 10): a minus sign for a negative `i`, then the digits of
its absolute value without leading zeros. -/
def strconv.FormatInt (i : Int) (base : Nat) : String :=
  if i < 0 then
    String.mk ('-' :: Nat.toDigits base i.natAbs)
  else
    String.mk (Nat.toDigits base i.toNat)

/-- `String`: the total in base 10. -/
def RateCounter.String (r : RateCounter) : String :=
  strconv.FormatInt r.counter.Value 10

/-! ## The sequential step model -/

/-- A step of the sequential model: a call `Incr(d)` or one rotation tick. -/
inductive Step where
  | incr (d : Int)
  | tick
  deriving DecidableEq, Repr

/-- One step, applied atomically. -/
def applyStep (r : RateCounter) : Step → Outcome RateCounter
  | .incr d => r.Incr d
  | .tick => r.tick

/-- A trace of steps, from left to right; the first panic ends the run. -/
def runTrace (r : RateCounter) : List Step → Outcome RateCounter
  | [] => .ok r
  | a :: rest => (applyStep r a).bind (fun r1 => runTrace r1 rest)

/-- Sum of the values of all buckets, as a mathematical integer. -/
def bucketSum (r : RateCounter) : Int :=
  (r.partials.map Counter.Value).sum

/-- The counter as `NewRateCounter(ctx, intrvl).WithResolution(n)` builds it. -/
def newWithResolution (ctx : Bool) (intrvl n : Int) : Outcome RateCounter :=
  (NewRateCounter ctx intrvl).bind (fun r => r.WithResolution n)

/-- Number of rotation ticks in a trace. -/
def ticksIn : List Step → Nat
  | [] => 0
  | .incr _ :: rest => ticksIn rest
  | .tick :: rest => ticksIn rest + 1

/-- The sliding-window reference value of a trace, for resolution `R`: the
sum of the deltas of the `Incr` steps that fewer than `R` ticks follow. -/
def windowSum (R : Nat) : List Step → Int
  | [] => 0
  | .incr d :: rest => (if ticksIn rest < R then d else 0) + windowSum R rest
  | .tick :: rest => windowSum R rest

/-- Sum of the deltas of the `Incr` steps that exactly `j` ticks follow. -/
def ageSum (j : Nat) : List Step → Int
  | [] => 0
  | .incr d :: rest => (if ticksIn rest = j then d else 0) + ageSum j rest
  | .tick :: rest => ageSum j rest

/-- Sum of the deltas of all `Incr` steps of a trace. -/
def deltaSum : List Step → Int
  | [] => 0
  | .incr d :: rest => d + deltaSum rest
  | .tick :: rest => deltaSum rest

/-- The bucket a tick expires: `next` in the body of `case <-ticker.C`. -/
def RateCounter.next (r : RateCounter) : Int :=
  Int.tmod (r.current + 1) r.resolution

/-- The buckets expired by `k` consecutive ticks, in order (empty from the
first tick that panics on). -/
def expiredBy : Nat → RateCounter → List Int
  | 0, _ => []
  | k + 1, r =>
    match r.tick with
    | .ok r1 => r.next :: expiredBy k r1
    | .panic _ _ => []

/-! ## The step model with the calls of the API and the goroutine -/

/-- An operation on a counter: a call of its API, a step of the rotation
goroutine (`tick`, `done`), or the cancellation of its context. -/
inductive Op where
  | Incr (val : Int)
  | Rate
  | String
  | WithResolution (resolution : Int)
  | tick
  | done
  | cancel
  deriving DecidableEq, Repr

/-- One operation, applied atomically. `Rate` and `String` return a value and
leave the counter as it is. -/
def applyOp (r : RateCounter) : Op → Outcome RateCounter
  | .Incr val => r.Incr val
  | .Rate => .ok r
  | .String => .ok r
  | .WithResolution n => r.WithResolution n
  | .tick => r.tick
  | .done => .ok r.done
  | .cancel => .ok r.cancel

/-- A sequence of operations, from left to right; the first panic ends it. -/
def runOps (r : RateCounter) : List Op → Outcome RateCounter
  | [] => .ok r
  | a :: rest => (applyOp r a).bind (fun r1 => runOps r1 rest)

/-- Whether an operation can happen in a state: the steps of the goroutine
need a live goroutine, and `done` needs the context to be cancelled. -/
def Op.enabled (r : RateCounter) : Op → Bool
  | .tick => decide (0 < r.goroutines)
  | .done => decide (0 < r.goroutines) && r.ctx
  | _ => true

/-- Whether every operation of a sequence is enabled when its turn comes. -/
def enabledOps (r : RateCounter) : List Op → Bool
  | [] => true
  | a :: rest =>
    Op.enabled r a &&
      (match applyOp r a with
       | .ok r1 => enabledOps r1 rest
       | .panic _ _ => true)

/-- The flag and the number of live goroutines agree. -/
def flagMatchesGoroutines (r : RateCounter) : Prop :=
  (r.running = 0 ∧ r.goroutines = 0) ∨ (r.running = 1 ∧ r.goroutines = 1)

/-! ## Concurrent calls of `Incr` -/

/-- A call `Incr(val)` in progress: `pc` is the number of atomic operations it
has done (4 when it has returned), `idx` the index it has loaded. -/
structure IncrCall where
  val : Int
  pc : Nat
  idx : Int
  deriving DecidableEq, Repr

/-- The next atomic operation of a call of `Incr`: the atomic add to the
total, the atomic load of `current`, the atomic add to the bucket at the
loaded index, and `run` with its compare-and-swap. -/
def IncrCall.step (r : RateCounter) (c : IncrCall) : Outcome (RateCounter × IncrCall) :=
  match c.pc with
  | 0 => .ok ({ r with counter := r.counter.Incr c.val }, { c with pc := 1 })
  | 1 => .ok (r, { c with pc := 2, idx := r.current })
  | 2 =>
    match index r.partials c.idx with
    | none => .panic .indexOutOfRange (r, c)
    | some p =>
      .ok ({ r with partials := r.partials.set c.idx.toNat (p.Incr c.val) },
        { c with pc := 3 })
  | 3 => .ok (r.run, { c with pc := 4 })
  | _ => .ok (r, c)

/-- The caller number `i` does its next atomic operation. -/
def stepCaller (st : RateCounter × List IncrCall) (i : Nat) :
    Outcome (RateCounter × List IncrCall) :=
  match st.2[i]? with
  | none => .ok st
  | some c =>
    match c.step st.1 with
    | .ok (r1, c1) => .ok (r1, st.2.set i c1)
    | .panic p (r1, c1) => .panic p (r1, st.2.set i c1)

/-- An interleaving: the list of the callers that move, in order. -/
def runSchedule (st : RateCounter × List IncrCall) :
    List Nat → Outcome (RateCounter × List IncrCall)
  | [] => .ok st
  | i :: rest => (stepCaller st i).bind (fun st1 => runSchedule st1 rest)

/-- One call per delta, none of them started. -/
def startCalls (ds : List Int) : List IncrCall :=
  ds.map (fun d => IncrCall.mk d 0 0)

/-- Sum of the deltas of the calls that have added to the total. -/
def addedSum (cs : List IncrCall) : Int :=
  (cs.map (fun c => if 1 ≤ c.pc then c.val else 0)).sum

/-- The invariant of the interleavings on a new counter. -/
def Interleaved (ds : List Int) (st : RateCounter × List IncrCall) : Prop :=
  st.1.current = 0 ∧ st.1.partials.length = 20 ∧
  st.1.counter.value = wrap64 (addedSum st.2) ∧
  st.2.map IncrCall.val = ds ∧
  (∀ c ∈ st.2, 2 ≤ c.pc → c.idx = 0) ∧
  ((st.1.running = 0 ∧ st.1.goroutines = 0 ∧ ∀ c ∈ st.2, c.pc ≤ 3) ∨
    (st.1.running = 1 ∧ st.1.goroutines = 1))

/-! ## Reading a decimal text -/

/-- The value of a decimal digit. -/
def digitValue (c : Char) : Option Nat :=
  if '0' ≤ c ∧ c ≤ '9' then some (c.toNat - '0'.toNat) else none

/-- The value of a text of decimal digits read after the value `acc`. -/
def parseDigitsFrom (acc : Nat) : List Char → Option Nat
  | [] => some acc
  | c :: cs =>
    match digitValue c with
    | some v => parseDigitsFrom (acc * 10 + v) cs
    | none => none

/-- The value of a non-empty text of decimal digits. -/
def parseDecimal (cs : List Char) : Option Nat :=
  match cs with
  | [] => none
  | _ :: _ => parseDigitsFrom 0 cs

/-- The reading of a text as a signed 64-bit decimal: an optional `-`, then
digits, with a value in `[-2^63, 2^63)`. -/
def parseInt64 (s : String) : Option Int :=
  match s.data with
  | [] => none
  | c :: ds =>
    if c = '-' then
      match parseDecimal ds with
      | some n => if n ≤ 9223372036854775808 then some (-(n : Int)) else none
      | none => none
    else
      match parseDecimal (c :: ds) with
      | some n => if n < 9223372036854775808 then some (n : Int) else none
      | none => none

/-- A text of digits without leading zeros: `0` itself, or digits that do not
start with `0`. -/
def noLeadingZero (cs : List Char) : Prop :=
  cs = ['0'] ∨ (cs ≠ [] ∧ cs.head? ≠ some '0')

/-! ## The ticker of the rotation goroutine -/

/-- Rounding of a rational to the nearest integer, ties to the even one. -/
def roundHalfEven (q : ℚ) : Int :=
  let f := ⌊q⌋
  if q - f < 1 / 2 then f
  else if 1 / 2 < q - f then f + 1
  else if f % 2 = 0 then f else f + 1

/-- The binary exponent of a positive rational `q`: the integer `e` with
`2^e ≤ q < 2^(e+1)`. -/
def binade (q : ℚ) : Int :=
  let e0 : Int := (Nat.log2 q.num.natAbs : Int) - (Nat.log2 q.den : Int)
  if q < (2 : ℚ) ^ e0 then e0 - 1 else e0

/-- The `float64` nearest to a rational (53 significant bits, ties to even),
as a rational. Overflow and subnormal numbers are not modelled: the values
that occur are quotients of two integers of at most 64 bits. -/
def roundFloat64 (q : ℚ) : ℚ :=
  if q = 0 then 0
  else
    let u := (2 : ℚ) ^ (binade |q| - 52)
    let m := roundHalfEven (|q| / u)
    if q < 0 then -((m : ℚ) * u) else (m : ℚ) * u

/-- The conversion of a `float64` to `int64` (as in `time.Duration(f)`): the
value truncated towards zero; when that does not fit, the result depends on
the platform and is the parameter `outOfRange`. -/
def toInt64 (outOfRange : Int) (f : ℚ) : Int :=
  let t := Int.tdiv f.num f.den
  if -9223372036854775808 ≤ t ∧ t < 9223372036854775808 then t else outOfRange

/-- The period of the ticker:
`time.Duration(float64(r.interval) / float64(r.resolution))`. -/
def tickerPeriod (outOfRange : Int) (r : RateCounter) : Int :=
  if r.resolution = 0 then outOfRange
  else toInt64 outOfRange
    (roundFloat64 (roundFloat64 (r.interval : ℚ) / roundFloat64 (r.resolution : ℚ)))

/-- The library call `time.NewTicker(d)`: it panics when `d` is not positive
(`none`), and otherwise gives a ticker of period `d`. -/
def time.NewTicker (d : Int) : Option Int :=
  if d ≤ 0 then none else some d

/-- The first statement of the goroutine started by `run`: the creation of
the ticker. A panic of a goroutine ends the program. -/
def RateCounter.startTicker (outOfRange : Int) (r : RateCounter) : Outcome RateCounter :=
  match time.NewTicker (tickerPeriod outOfRange r) with
  | none => .panic .nonPositiveInterval r
  | some _ => .ok r

/-! ## The timed model -/

/-- The steps a counter has taken by time `T` in the timed model: the first
event `d0` is recorded at time 0 and starts the rotation goroutine, which
ticks at the times `p`, `2p`, `3p`, ...; a second event `d` is recorded at
time `τ ≤ T`. A tick due at the very time of an event or of the observation
comes first. -/
def timedTrace (d0 : Int) (p τ T : Nat) (d : Int) : List Step :=
  .incr d0 :: (List.replicate (τ / p) Step.tick ++
    .incr d :: List.replicate (T / p - τ / p) Step.tick)

/-- The time at which the event recorded at time `τ` leaves the total: the
time of the `R`-th tick after it. -/
def evictionTime (R p τ : Nat) : Nat :=
  (τ / p + R) * p

/-! ## The window invariant -/

/-- Age, in ticks, of bucket `i` when bucket `c` is the current one in a ring
of `R` buckets: the number of ticks since `i` was the current bucket. -/
def ageOf (R c i : Nat) : Nat :=
  if i ≤ c then c - i else c + R - i

/-- The index after `c` in a ring of `R` buckets. -/
def nextIndex (R c : Nat) : Nat :=
  if c + 1 < R then c + 1 else 0

/-- The state `s` is the ring of `R` buckets after the trace `t`: the index is
in range, the bucket of age `a` holds the deltas of the `Incr` steps that
exactly `a` ticks follow, and the total holds those of all ages below `R`. -/
def Windowed (R : Nat) (t : List Step) (s : RateCounter) : Prop :=
  s.resolution = (R : Int) ∧ s.partials.length = R ∧
  ∃ c : Nat, c < R ∧ s.current = (c : Int) ∧
    (∀ i, i < R → ∃ b, s.partials[i]? = some b ∧
      b.Value = wrap64 (ageSum (ageOf R c i) t)) ∧
    s.Rate = wrap64 (Finset.sum (Finset.range R) (fun j => ageSum j t))

/-! ## Arithmetic of the wrapped integers -/

theorem wrap64_idem (x : Int) : wrap64 (wrap64 x) = wrap64 x := by
  unfold wrap64; omega

theorem wrap64_add_left (x y : Int) : wrap64 (wrap64 x + y) = wrap64 (x + y) := by
  unfold wrap64; omega

theorem wrap64_add_right (x y : Int) : wrap64 (x + wrap64 y) = wrap64 (x + y) := by
  unfold wrap64; omega

theorem wrap64_sub_neg (x y : Int) :
    wrap64 (wrap64 x + wrap64 (-1 * wrap64 y)) = wrap64 (x - y) := by
  unfold wrap64; omega

theorem wrap64_of_range (x : Int) (h1 : -9223372036854775808 ≤ x)
    (h2 : x < 9223372036854775808) : wrap64 x = x := by
  unfold wrap64; omega

theorem wrap32_of_range (x : Int) (h1 : -2147483648 ≤ x)
    (h2 : x < 2147483648) : wrap32 x = x := by
  unfold wrap32; omega

/-! ## Slices -/

theorem index_eq_some {α : Type} {xs : List α} {i : Int} {p : α}
    (h : index xs i = some p) :
    0 ≤ i ∧ i.toNat < xs.length ∧ xs[i.toNat]? = some p := by
  unfold index at h
  split at h
  · rename_i hi
    refine ⟨hi.1, ?_, h⟩
    omega
  · cases h

theorem index_natCast {α : Type} (xs : List α) (i : Nat) :
    index xs (i : Int) = xs[i]? := by
  unfold index
  by_cases h : i < xs.length
  · simp [h]
  · have h2 : xs[i]? = none := List.getElem?_eq_none (by omega)
    simp [h, h2]

theorem sum_map_set {α : Type} (f : α → Int) (xs : List α) (i : Nat) (p q : α)
    (h : xs[i]? = some p) :
    ((xs.set i q).map f).sum = (xs.map f).sum - f p + f q := by
  induction xs generalizing i with
  | nil => simp at h
  | cons x rest ih =>
    cases i with
    | zero =>
      simp at h
      subst h
      simp only [List.set_cons_zero, List.map_cons, List.sum_cons]
      omega
    | succ j =>
      simp at h
      have h3 := ih j h
      simp only [List.set_cons_succ, List.map_cons, List.sum_cons, h3]
      omega

/-! ## Effect of the single steps -/

theorem run_counter (r : RateCounter) : r.run.counter = r.counter := by
  unfold RateCounter.run; split <;> rfl

theorem run_partials (r : RateCounter) : r.run.partials = r.partials := by
  unfold RateCounter.run; split <;> rfl

theorem run_current (r : RateCounter) : r.run.current = r.current := by
  unfold RateCounter.run; split <;> rfl

theorem run_resolution (r : RateCounter) : r.run.resolution = r.resolution := by
  unfold RateCounter.run; split <;> rfl

theorem run_interval (r : RateCounter) : r.run.interval = r.interval := by
  unfold RateCounter.run; split <;> rfl

theorem run_ctx (r : RateCounter) : r.run.ctx = r.ctx := by
  unfold RateCounter.run; split <;> rfl

theorem run_running (r : RateCounter) (h : r.running = 0 ∨ r.running = 1) :
    r.run.running = 1 := by
  unfold RateCounter.run
  split
  · rfl
  · rcases h with h | h
    · contradiction
    · exact h

theorem run_of_zero (r : RateCounter) (h : r.running = 0) :
    r.run = { r with running := 1, goroutines := r.goroutines + 1 } := by
  unfold RateCounter.run
  rw [if_pos h]

theorem run_of_ne_zero (r : RateCounter) (h : r.running ≠ 0) : r.run = r := by
  unfold RateCounter.run
  rw [if_neg h]

/-- A call of `Incr` that finds its bucket returns normally. -/
theorem Incr_of_index {r : RateCounter} {p : Counter} (val : Int)
    (h : index r.partials r.current = some p) :
    r.Incr val = .ok (RateCounter.run { r with
      counter := r.counter.Incr val
      partials := r.partials.set r.current.toNat (p.Incr val) }) := by
  unfold RateCounter.Incr
  simp only [h]

/-- A call of `Incr` that returns normally has found its bucket. -/
theorem Incr_eq_ok {r s : RateCounter} {val : Int} (h : r.Incr val = .ok s) :
    ∃ p, index r.partials r.current = some p ∧
      s = RateCounter.run { r with
        counter := r.counter.Incr val
        partials := r.partials.set r.current.toNat (p.Incr val) } := by
  unfold RateCounter.Incr at h
  cases hp : index r.partials r.current with
  | none => simp only [hp] at h; cases h
  | some p =>
    simp only [hp] at h
    exact ⟨p, rfl, (Outcome.ok.inj h).symm⟩

/-- A tick that finds the bucket to expire completes. -/
theorem tick_of_index {r : RateCounter} {p : Counter} (h0 : r.resolution ≠ 0)
    (h : index r.partials r.next = some p) :
    r.tick = .ok { r with
      counter := r.counter.Incr (wrap64 (-1 * p.Value))
      partials := r.partials.set r.next.toNat p.Reset
      current := wrap32 r.next } := by
  unfold RateCounter.next at h
  unfold RateCounter.tick RateCounter.next
  simp only [h0, if_false, h, if_true]

/-- A tick that completes has found the bucket to expire. -/
theorem tick_eq_ok {r s : RateCounter} (h : r.tick = .ok s) :
    r.resolution ≠ 0 ∧ ∃ p, index r.partials r.next = some p ∧
      s = { r with
        counter := r.counter.Incr (wrap64 (-1 * p.Value))
        partials := r.partials.set r.next.toNat p.Reset
        current := wrap32 r.next } := by
  by_cases h0 : r.resolution = 0
  · unfold RateCounter.tick at h
    simp only [h0, if_true] at h
    cases h
  · refine ⟨h0, ?_⟩
    cases hp : index r.partials r.next with
    | none =>
      unfold RateCounter.next at hp
      unfold RateCounter.tick at h
      simp only [h0, if_false, hp] at h
      cases h
    | some p =>
      rw [tick_of_index h0 hp] at h
      exact ⟨p, rfl, (Outcome.ok.inj h).symm⟩

theorem runTrace_append (r : RateCounter) (t u : List Step) :
    runTrace r (t ++ u) = (runTrace r t).bind (fun r1 => runTrace r1 u) := by
  induction t generalizing r with
  | nil => rfl
  | cons a rest ih =>
    simp only [List.cons_append, runTrace]
    cases applyStep r a with
    | ok r1 => exact ih r1
    | panic p r1 => rfl

theorem runTrace_cons_ok {r r1 : RateCounter} {a : Step} (rest : List Step)
    (h : applyStep r a = .ok r1) : runTrace r (a :: rest) = runTrace r1 rest := by
  rw [runTrace, h]
  rfl

theorem runTrace_cons_panic {r r1 : RateCounter} {a : Step} {p : Panic} (rest : List Step)
    (h : applyStep r a = .panic p r1) : runTrace r (a :: rest) = .panic p r1 := by
  rw [runTrace, h]
  rfl

theorem runTrace_append_ok {r r1 : RateCounter} {t : List Step} (u : List Step)
    (h : runTrace r t = .ok r1) : runTrace r (t ++ u) = runTrace r1 u := by
  rw [runTrace_append, h]
  rfl

/-! ## The total is the sum of the buckets -/

theorem Incr_sum {r s : RateCounter} {val : Int} (h : r.Incr val = .ok s)
    (hr : r.Rate = wrap64 (bucketSum r)) : s.Rate = wrap64 (bucketSum s) := by
  obtain ⟨p, hp, rfl⟩ := Incr_eq_ok h
  obtain ⟨_, _, hget⟩ := index_eq_some hp
  unfold RateCounter.Rate Counter.Value bucketSum at *
  rw [run_counter, run_partials]
  simp only [Counter.Incr]
  rw [sum_map_set Counter.Value _ _ p _ hget, hr]
  simp only [Counter.Value]
  unfold wrap64; omega

theorem tick_sum {r s : RateCounter} (h : r.tick = .ok s)
    (hr : r.Rate = wrap64 (bucketSum r)) : s.Rate = wrap64 (bucketSum s) := by
  obtain ⟨_, p, hp, rfl⟩ := tick_eq_ok h
  obtain ⟨_, _, hget⟩ := index_eq_some hp
  unfold RateCounter.Rate Counter.Value bucketSum at *
  simp only [Counter.Incr, Counter.Reset]
  rw [sum_map_set Counter.Value _ _ p _ hget, hr]
  simp only [Counter.Value]
  unfold wrap64; omega

theorem runTrace_sum {r s : RateCounter} {t : List Step} (h : runTrace r t = .ok s)
    (hr : r.Rate = wrap64 (bucketSum r)) : s.Rate = wrap64 (bucketSum s) := by
  induction t generalizing r with
  | nil =>
    cases Outcome.ok.inj h
    exact hr
  | cons a rest ih =>
    simp only [runTrace] at h
    cases ha : applyStep r a with
    | panic p r1 => rw [ha] at h; cases h
    | ok r1 =>
      rw [ha] at h
      refine ih h ?_
      cases a with
      | incr d => exact Incr_sum ha hr
      | tick => exact tick_sum ha hr

/-! ## Construction and configuration -/

theorem NewRateCounter_eq (ctx : Bool) (intrvl : Int) :
    NewRateCounter ctx intrvl
      = .ok (RateCounter.mk ⟨0⟩ intrvl 20 (List.replicate 20 ⟨0⟩) 0 0 ctx 0) :=
  rfl

theorem makeCounters_of_range (n : Int) (h : 0 ≤ n) (h2 : n ≤ maxSliceLen) :
    makeCounters n = some (List.replicate n.toNat ⟨0⟩) := by
  unfold makeCounters
  rw [if_neg (by omega)]

theorem makeCounters_of_large (n : Int) (h : maxSliceLen < n) : makeCounters n = none := by
  unfold makeCounters
  rw [if_pos (Or.inr h)]

/-- A resolution below 1 panics in the check, with the state untouched. -/
theorem WithResolution_of_lt_one (r : RateCounter) (n : Int) (h : n < 1) :
    r.WithResolution n = .panic .resolutionLessThanOne r := by
  unfold RateCounter.WithResolution
  rw [if_pos h]

/-- A resolution from 1 to the largest slice length is installed. -/
theorem WithResolution_of_range (r : RateCounter) (n : Int) (h : 1 ≤ n)
    (h2 : n ≤ maxSliceLen) :
    r.WithResolution n = .ok { r with
      resolution := n
      partials := List.replicate n.toNat ⟨0⟩
      current := 0 } := by
  unfold RateCounter.WithResolution
  rw [if_neg (by omega)]
  simp only [makeCounters_of_range n (by omega) h2]

/-- A resolution above the largest slice length panics in `make`, after the
assignment of `resolution`. -/
theorem WithResolution_of_large (r : RateCounter) (n : Int) (h : maxSliceLen < n) :
    r.WithResolution n = .panic .makeSliceLenOutOfRange { r with resolution := n } := by
  have h1 : ¬ n < 1 := by unfold maxSliceLen at h; omega
  unfold RateCounter.WithResolution
  rw [if_neg h1]
  simp only [makeCounters_of_large n h]

theorem maxSliceLen_of_bounded (R : Nat) (h : R ≤ 2147483648) : (R : Int) ≤ maxSliceLen := by
  unfold maxSliceLen
  omega

theorem newWithResolution_eq (ctx : Bool) (intrvl n : Int) (h : 1 ≤ n)
    (h2 : n ≤ maxSliceLen) :
    newWithResolution ctx intrvl n
      = .ok (RateCounter.mk ⟨0⟩ intrvl n (List.replicate n.toNat ⟨0⟩) 0 0 ctx 0) := by
  unfold newWithResolution
  rw [NewRateCounter_eq]
  simp only [Outcome.bind]
  rw [WithResolution_of_range _ n h h2]

/-- C7: for every context and interval, `NewRateCounter` returns normally a
counter with resolution 20, exactly 20 buckets all 0, current index 0,
`running` 0, the interval it was given, no goroutine, and `Rate()` = 0. -/
theorem NewRateCounter_spec (ctx : Bool) (intrvl : Int) :
    ∃ r, NewRateCounter ctx intrvl = .ok r ∧
      r.resolution = 20 ∧ r.partials.length = 20 ∧
      r.partials = List.replicate 20 ⟨0⟩ ∧ (∀ b ∈ r.partials, b.Value = 0) ∧
      r.current = 0 ∧ r.running = 0 ∧ r.interval = intrvl ∧ r.ctx = ctx ∧
      r.goroutines = 0 ∧ r.Rate = 0 := by
  refine ⟨_, rfl, rfl, rfl, rfl, ?_, rfl, rfl, rfl, rfl, rfl, rfl⟩
  intro b hb
  have hb2 : b ∈ List.replicate 20 (Counter.mk 0) := hb
  rw [List.eq_of_mem_replicate hb2]
  rfl

/-- C5, amended: `WithResolution(n)` panics with the panic of the resolution
check exactly when `n < 1` (so for 0 and every negative `n`), and the state
the counter has at that panic is the state it had before the call:
resolution, buckets, current index, total and running flag are untouched. For
`n ≥ 1` the call panics only in `make`, exactly when `n` is above the largest
slice length. -/
theorem WithResolution_panics_iff (r : RateCounter) (n : Int) :
    ((∃ s, r.WithResolution n = .panic .resolutionLessThanOne s) ↔ n < 1) ∧
    (∀ s, r.WithResolution n = .panic .resolutionLessThanOne s → s = r) ∧
    ((∃ p s, r.WithResolution n = .panic p s) ↔ (n < 1 ∨ maxSliceLen < n)) ∧
    (∀ p s, r.WithResolution n = .panic p s → 1 ≤ n → p = .makeSliceLenOutOfRange) := by
  by_cases h : n < 1
  · rw [WithResolution_of_lt_one r n h]
    refine ⟨⟨fun _ => h, fun _ => ⟨r, rfl⟩⟩, ?_, ⟨fun _ => Or.inl h, fun _ => ⟨_, r, rfl⟩⟩, ?_⟩
    · intro s hs
      exact ((Outcome.panic.inj hs).2).symm
    · intro p s _ h1
      omega
  · by_cases h2 : maxSliceLen < n
    · rw [WithResolution_of_large r n h2]
      refine ⟨⟨?_, fun h3 => absurd h3 h⟩, ?_, ⟨fun _ => Or.inr h2, fun _ => ⟨_, _, rfl⟩⟩, ?_⟩
      · rintro ⟨s, hs⟩
        cases (Outcome.panic.inj hs).1
      · intro s hs
        cases (Outcome.panic.inj hs).1
      · intro p s hs _
        exact ((Outcome.panic.inj hs).1).symm
    · rw [WithResolution_of_range r n (by omega) (by omega)]
      refine ⟨⟨?_, fun h3 => absurd h3 h⟩, ?_, ⟨?_, ?_⟩, ?_⟩
      · rintro ⟨s, hs⟩
        cases hs
      · intro s hs
        cases hs
      · rintro ⟨p, s, hs⟩
        cases hs
      · rintro (h3 | h3)
        · exact absurd h3 h
        · exact absurd h3 h2
      · intro p s hs
        cases hs

/-- Witness of the amended C5 at `WithResolution(0)` on a new counter. -/
theorem WithResolution_panics_iff_witness :
    ∃ r, NewRateCounter false 50 = .ok r ∧
      r.WithResolution 0 = .panic .resolutionLessThanOne r ∧
      ((∃ s, r.WithResolution 0 = .panic .resolutionLessThanOne s) ↔ (0 : Int) < 1) :=
  ⟨_, rfl, rfl, (WithResolution_panics_iff _ 0).1⟩

/-- C5 fails as stated: on a new counter `WithResolution(2^62)` panics although
`n ≥ 1`, in `make`, and the counter is not left unchanged: the resolution has
already been assigned, next to the ring of the old resolution. -/
theorem WithResolution_large_panics :
    ∃ r s, NewRateCounter false 50 = .ok r ∧ (1 : Int) ≤ 4611686018427387904 ∧
      r.WithResolution 4611686018427387904 = .panic .makeSliceLenOutOfRange s ∧
      s.resolution = 4611686018427387904 ∧ r.resolution = 20 ∧
      s.partials = r.partials ∧ s ≠ r := by
  refine ⟨_, _, NewRateCounter_eq false 50, by decide,
    WithResolution_of_large _ _ (by decide), rfl, rfl, rfl, ?_⟩
  intro h
  have h1 := congrArg RateCounter.resolution h
  exact absurd h1 (by decide)

/-- C6, amended: for every state and every `n` from 1 to the largest slice
length, `WithResolution(n)` returns normally the receiver with resolution `n`,
a ring of exactly `n` buckets all 0 and current index 0; the total (so
`Rate()`), the interval, the running flag, the context and the goroutines are
unchanged. -/
theorem WithResolution_ok (r : RateCounter) (n : Int) (h : 1 ≤ n) (h2 : n ≤ maxSliceLen) :
    ∃ s, r.WithResolution n = .ok s ∧
      s.resolution = n ∧ (s.partials.length : Int) = n ∧
      (∀ b ∈ s.partials, b.Value = 0) ∧ s.current = 0 ∧
      s.counter = r.counter ∧ s.Rate = r.Rate ∧ s.interval = r.interval ∧
      s.running = r.running ∧ s.ctx = r.ctx ∧ s.goroutines = r.goroutines := by
  refine ⟨_, WithResolution_of_range r n h h2, rfl, ?_, ?_, rfl, rfl, rfl, rfl, rfl, rfl, rfl⟩
  · show ((List.replicate n.toNat (Counter.mk 0)).length : Int) = n
    rw [List.length_replicate]
    omega
  · intro b hb
    have hb2 : b ∈ List.replicate n.toNat (Counter.mk 0) := hb
    rw [List.eq_of_mem_replicate hb2]
    rfl

/-- Witness of the amended C6: `WithResolution(4)` on a counter that holds a
total of 3. -/
theorem WithResolution_ok_witness :
    (1 : Int) ≤ 4 ∧ (4 : Int) ≤ maxSliceLen ∧
    ∃ s, (RateCounter.mk ⟨3⟩ 50 20 (List.replicate 20 ⟨0⟩) 7 1 false 1).WithResolution 4 = .ok s ∧
      s.resolution = 4 ∧ (s.partials.length : Int) = 4 ∧
      (∀ b ∈ s.partials, b.Value = 0) ∧ s.current = 0 ∧
      s.counter = ⟨3⟩ ∧ s.Rate = 3 ∧ s.interval = 50 ∧
      s.running = 1 ∧ s.ctx = false ∧ s.goroutines = 1 :=
  ⟨by decide, by decide, WithResolution_ok _ 4 (by decide) (by decide)⟩

/-- C6 fails as stated: with `n` the largest `int`, which is at least 1,
`WithResolution(n)` does not return: it panics in `make`. -/
theorem WithResolution_large_no_return :
    (1 : Int) ≤ 9223372036854775807 ∧
    (RateCounter.mk ⟨3⟩ 50 20 (List.replicate 20 ⟨0⟩) 7 1 false 1).WithResolution
        9223372036854775807
      = .panic .makeSliceLenOutOfRange
          (RateCounter.mk ⟨3⟩ 50 9223372036854775807 (List.replicate 20 ⟨0⟩) 7 1 false 1) ∧
    ¬ ∃ s, (RateCounter.mk ⟨3⟩ 50 20 (List.replicate 20 ⟨0⟩) 7 1 false 1).WithResolution
        9223372036854775807 = .ok s := by
  have h := WithResolution_of_large
    (RateCounter.mk ⟨3⟩ 50 20 (List.replicate 20 ⟨0⟩) 7 1 false 1) 9223372036854775807
    (by decide)
  refine ⟨by decide, h, ?_⟩
  rintro ⟨s, hs⟩
  rw [h] at hs
  cases hs

/-! ## Claims on the total -/

/-- C4: in every state reached from `NewRateCounter`, or from `NewRateCounter`
followed by `WithResolution(n)` with `n ≥ 1`, by `Incr` steps and rotation
ticks, the total equals the sum of all bucket values modulo 2^64; the tick's
negation `-1 * value` is the wrapping one, so this covers an expired bucket
that holds the minimum int64. -/
theorem total_eq_bucketSum (ctx : Bool) (intrvl n : Int) (s0 s : RateCounter)
    (t : List Step)
    (h0 : NewRateCounter ctx intrvl = .ok s0 ∨
      (1 ≤ n ∧ newWithResolution ctx intrvl n = .ok s0))
    (h : runTrace s0 t = .ok s) :
    s.Rate = wrap64 (bucketSum s) ∧
      (s.Rate - bucketSum s) % 18446744073709551616 = 0 := by
  have hs0 : s0.Rate = wrap64 (bucketSum s0) := by
    rcases h0 with h0 | ⟨hn, h0⟩
    · cases Outcome.ok.inj h0
      rfl
    · by_cases hbig : maxSliceLen < n
      · unfold newWithResolution at h0
        rw [NewRateCounter_eq] at h0
        simp only [Outcome.bind] at h0
        rw [WithResolution_of_large _ n hbig] at h0
        cases h0
      rw [newWithResolution_eq ctx intrvl n hn (by omega)] at h0
      have h2 := Outcome.ok.inj h0
      subst h2
      unfold bucketSum RateCounter.Rate Counter.Value
      have h3 : ∀ k : Nat, ((List.replicate k (Counter.mk 0)).map Counter.value).sum = 0 := by
        intro k
        induction k with
        | zero => rfl
        | succ k ih => simp only [List.replicate_succ, List.map_cons, List.sum_cons, ih]; rfl
      show (0 : Int) = wrap64 ((List.replicate n.toNat (Counter.mk 0)).map Counter.value).sum
      rw [h3]
      rfl
  have hs := runTrace_sum h hs0
  refine ⟨hs, ?_⟩
  rw [hs]
  unfold wrap64
  omega

/-- Witness of C4 with two buckets: the bucket that the second tick expires
holds the minimum int64, whose negation wraps to itself. -/
theorem total_eq_bucketSum_witness :
    runTrace (RateCounter.mk ⟨0⟩ 50 2 [⟨0⟩, ⟨0⟩] 0 0 false 0)
        [.incr (-9223372036854775808), .tick, .tick]
      = .ok (RateCounter.mk ⟨0⟩ 50 2 [⟨0⟩, ⟨0⟩] 0 1 false 1) ∧
    (RateCounter.mk ⟨0⟩ 50 2 [⟨0⟩, ⟨0⟩] 0 1 false 1).Rate
      = wrap64 (bucketSum (RateCounter.mk ⟨0⟩ 50 2 [⟨0⟩, ⟨0⟩] 0 1 false 1)) :=
  ⟨by decide,
   (total_eq_bucketSum false 50 2 (RateCounter.mk ⟨0⟩ 50 2 [⟨0⟩, ⟨0⟩] 0 0 false 0) _
      [.incr (-9223372036854775808), .tick, .tick]
      (Or.inr ⟨by decide, by decide⟩) (by decide)).1⟩

theorem runTrace_incrs (r : RateCounter) (ds : List Int)
    (h1 : 0 ≤ r.current) (h2 : r.current < r.partials.length)
    (h3 : wrap64 r.Rate = r.Rate) :
    ∃ s, runTrace r (ds.map Step.incr) = .ok s ∧
      s.Rate = wrap64 (r.Rate + ds.sum) ∧ s.current = r.current ∧
      s.partials.length = r.partials.length ∧ s.resolution = r.resolution := by
  induction ds generalizing r with
  | nil =>
    refine ⟨r, rfl, ?_, rfl, rfl, rfl⟩
    simp only [List.sum_nil, add_zero, h3]
  | cons d rest ih =>
    have hi : ∃ p, index r.partials r.current = some p := by
      unfold index
      simp only [h1, h2, and_self, if_true]
      have h4 : r.current.toNat < r.partials.length := by omega
      exact ⟨_, List.getElem?_eq_getElem h4⟩
    obtain ⟨p, hp⟩ := hi
    have hstep := Incr_of_index d hp
    obtain ⟨s, hs, hrate, hcur, hlen, hres⟩ := ih
      (RateCounter.run { r with
        counter := r.counter.Incr d
        partials := r.partials.set r.current.toNat (p.Incr d) })
      (by rw [run_current]; exact h1)
      (by rw [run_current, run_partials]; simpa using h2)
      (by
        unfold RateCounter.Rate Counter.Value
        rw [run_counter]
        exact wrap64_idem _)
    refine ⟨s, ?_, ?_, ?_, ?_, ?_⟩
    · simp only [List.map_cons, runTrace, applyStep, hstep, Outcome.bind]
      exact hs
    · rw [hrate]
      unfold RateCounter.Rate Counter.Value
      rw [run_counter]
      simp only [Counter.Incr, List.sum_cons]
      rw [wrap64_add_left, add_assoc]
    · rw [hcur, run_current]
    · rw [hlen, run_partials]; simp
    · rw [hres, run_resolution]

/-- C2: for every finite sequence of deltas, the calls `Incr(d1)`, ...,
`Incr(dn)` on a newly constructed counter, with no rotation tick in between,
all return normally and leave `Rate()` equal to `d1 + ... + dn` computed with
64-bit wraparound. -/
theorem Rate_after_incrs (ctx : Bool) (intrvl : Int) (ds : List Int) :
    ∃ r s, NewRateCounter ctx intrvl = .ok r ∧
      runTrace r (ds.map Step.incr) = .ok s ∧ s.Rate = wrap64 ds.sum := by
  obtain ⟨s, hs, hR, _⟩ := runTrace_incrs
    (RateCounter.mk ⟨0⟩ intrvl 20 (List.replicate 20 ⟨0⟩) 0 0 ctx 0) ds
    (le_refl (0 : Int)) (show (0 : Int) < ((List.replicate 20 (Counter.mk 0)).length : Int) by decide) rfl
  refine ⟨_, s, NewRateCounter_eq ctx intrvl, hs, ?_⟩
  rw [hR]
  show wrap64 (0 + ds.sum) = wrap64 ds.sum
  rw [zero_add]

/-! ## The window invariant along a trace -/

theorem ticksIn_append (t u : List Step) : ticksIn (t ++ u) = ticksIn t + ticksIn u := by
  induction t with
  | nil => simp [ticksIn]
  | cons a rest ih =>
    rw [List.cons_append]
    cases a with
    | incr d => rw [ticksIn, ticksIn, ih]
    | tick => rw [ticksIn, ticksIn, ih]; omega

theorem ageSum_snoc_incr (j : Nat) (t : List Step) (d : Int) :
    ageSum j (t ++ [.incr d]) = ageSum j t + (if j = 0 then d else 0) := by
  induction t with
  | nil =>
    rw [List.nil_append, ageSum, ageSum, ticksIn]
    by_cases h : j = 0
    · subst h; simp [ageSum]
    · have h2 : ¬ (0 = j) := fun e => h e.symm
      simp [h, h2, ageSum]
  | cons a rest ih =>
    rw [List.cons_append]
    cases a with
    | incr e =>
      rw [ageSum, ageSum, ih, ticksIn_append]
      simp only [ticksIn, add_zero]
      omega
    | tick => rw [ageSum, ageSum, ih]

theorem ageSum_snoc_tick_zero (t : List Step) : ageSum 0 (t ++ [.tick]) = 0 := by
  induction t with
  | nil => rfl
  | cons a rest ih =>
    rw [List.cons_append]
    cases a with
    | incr e =>
      rw [ageSum, ih, ticksIn_append]
      simp [ticksIn]
    | tick => rw [ageSum, ih]

theorem ageSum_snoc_tick_succ (j : Nat) (t : List Step) :
    ageSum (j + 1) (t ++ [.tick]) = ageSum j t := by
  induction t with
  | nil => rfl
  | cons a rest ih =>
    rw [List.cons_append]
    cases a with
    | incr e =>
      rw [ageSum, ageSum, ih, ticksIn_append]
      simp [ticksIn]
    | tick => rw [ageSum, ageSum, ih]

theorem windowSum_eq_sum (R : Nat) (t : List Step) :
    windowSum R t = Finset.sum (Finset.range R) (fun j => ageSum j t) := by
  induction t with
  | nil => simp [windowSum, ageSum]
  | cons a rest ih =>
    cases a with
    | incr d =>
      simp only [windowSum, ageSum, ih, Finset.sum_add_distrib]
      congr 1
      rw [Finset.sum_ite_eq]
      simp
    | tick => simp only [windowSum, ageSum, ih]

theorem sum_snoc_incr (R : Nat) (hR : 1 ≤ R) (t : List Step) (d : Int) :
    Finset.sum (Finset.range R) (fun j => ageSum j (t ++ [.incr d]))
      = Finset.sum (Finset.range R) (fun j => ageSum j t) + d := by
  simp only [ageSum_snoc_incr, Finset.sum_add_distrib]
  congr 1
  rw [Finset.sum_ite_eq']
  simp
  omega

theorem sum_snoc_tick (m : Nat) (t : List Step) :
    Finset.sum (Finset.range (m + 1)) (fun j => ageSum j (t ++ [.tick]))
      = Finset.sum (Finset.range (m + 1)) (fun j => ageSum j t) - ageSum m t := by
  rw [Finset.sum_range_succ', Finset.sum_range_succ]
  simp only [ageSum_snoc_tick_zero, ageSum_snoc_tick_succ]
  omega

theorem nextIndex_lt (R c : Nat) (hR : 1 ≤ R) : nextIndex R c < R := by
  unfold nextIndex; split <;> omega

theorem ageOf_self (R c : Nat) : ageOf R c c = 0 := by
  unfold ageOf; simp

theorem ageOf_eq_zero {R c i : Nat} (_hc : c < R) (hi : i < R) (h : ageOf R c i = 0) :
    i = c := by
  unfold ageOf at h; split at h <;> omega

theorem ageOf_nextIndex (R c : Nat) (hc : c < R) : ageOf R c (nextIndex R c) = R - 1 := by
  unfold ageOf nextIndex; split_ifs <;> omega

theorem ageOf_after_tick {R c i : Nat} (hc : c < R) (hi : i < R)
    (h : i ≠ nextIndex R c) : ageOf R (nextIndex R c) i = ageOf R c i + 1 := by
  unfold ageOf nextIndex at *; split_ifs at * <;> omega

theorem next_eq_nextIndex {s : RateCounter} {R c : Nat} (hc : c < R)
    (hres : s.resolution = (R : Int)) (hcur : s.current = (c : Int)) :
    s.next = (nextIndex R c : Int) := by
  unfold RateCounter.next nextIndex
  rw [hres, hcur]
  split
  · rw [Int.tmod_eq_of_lt (by omega) (by omega)]
    push_cast
    rfl
  · have h : (c : Int) + 1 = (R : Int) := by omega
    rw [h, Int.tmod_self]
    rfl

theorem Windowed_init (ctx : Bool) (intrvl : Int) (R : Nat) (hR : 1 ≤ R) :
    Windowed R [] (RateCounter.mk ⟨0⟩ intrvl R (List.replicate R ⟨0⟩) 0 0 ctx 0) := by
  refine ⟨rfl, List.length_replicate _ _, 0, by omega, rfl, ?_, ?_⟩
  · intro i hi
    refine ⟨⟨0⟩, List.getElem?_replicate_of_lt hi, ?_⟩
    simp only [ageSum]
    rfl
  · simp only [ageSum, Finset.sum_const_zero]
    rfl

theorem Windowed_incr {R : Nat} {t : List Step} {s : RateCounter} (d : Int)
    (hR : 1 ≤ R) (h : Windowed R t s) :
    ∃ s1, s.Incr d = .ok s1 ∧ Windowed R (t ++ [.incr d]) s1 := by
  obtain ⟨hres, hlen, c, hc, hcur, hb, htot⟩ := h
  obtain ⟨p, hp, hpv⟩ := hb c hc
  have hidx : index s.partials s.current = some p := by
    rw [hcur, index_natCast]; exact hp
  refine ⟨_, Incr_of_index d hidx, ?_⟩
  have hnat : s.current.toNat = c := by rw [hcur]; rfl
  refine ⟨?_, ?_, c, hc, ?_, ?_, ?_⟩
  · rw [run_resolution]; exact hres
  · rw [run_partials]; simp only [List.length_set]; exact hlen
  · rw [run_current]; exact hcur
  · intro i hi
    rw [run_partials]
    simp only [hnat]
    by_cases hic : i = c
    · subst hic
      refine ⟨p.Incr d, List.getElem?_set_self (by omega), ?_⟩
      rw [ageOf_self, ageSum_snoc_incr]
      rw [ageOf_self] at hpv
      unfold Counter.Value at hpv
      simp only [Counter.Incr, Counter.Value, hpv, if_true]
      exact wrap64_add_left _ _
    · obtain ⟨b, hb1, hb2⟩ := hb i hi
      refine ⟨b, ?_, ?_⟩
      · rw [List.getElem?_set_ne (fun e => hic e.symm)]; exact hb1
      · rw [hb2, ageSum_snoc_incr]
        have hne : ¬ ageOf R c i = 0 := fun e => hic (ageOf_eq_zero hc hi e)
        simp only [hne, if_false, add_zero]
  · unfold RateCounter.Rate Counter.Value at *
    rw [run_counter, sum_snoc_incr R hR]
    simp only [Counter.Incr, htot]
    exact wrap64_add_left _ _

theorem Windowed_tick {R : Nat} {t : List Step} {s : RateCounter}
    (hR : 1 ≤ R) (hR2 : R ≤ 2147483648) (h : Windowed R t s) :
    ∃ s1, s.tick = .ok s1 ∧ Windowed R (t ++ [.tick]) s1 := by
  obtain ⟨hres, hlen, c, hc, hcur, hb, htot⟩ := h
  have hnext := next_eq_nextIndex hc hres hcur
  have hlt := nextIndex_lt R c hR
  obtain ⟨p, hp, hpv⟩ := hb (nextIndex R c) hlt
  have hidx : index s.partials s.next = some p := by
    rw [hnext, index_natCast]; exact hp
  have h0 : s.resolution ≠ 0 := by rw [hres]; omega
  refine ⟨_, tick_of_index h0 hidx, ?_⟩
  have hnat : s.next.toNat = nextIndex R c := by rw [hnext]; rfl
  refine ⟨hres, ?_, nextIndex R c, hlt, ?_, ?_, ?_⟩
  · simp only [List.length_set]; exact hlen
  · show wrap32 s.next = _
    rw [hnext]
    exact wrap32_of_range _ (by omega) (by omega)
  · intro i hi
    simp only [hnat]
    by_cases hic : i = nextIndex R c
    · subst hic
      refine ⟨p.Reset, List.getElem?_set_self (by omega), ?_⟩
      rw [ageOf_self, ageSum_snoc_tick_zero]
      rfl
    · obtain ⟨b, hb1, hb2⟩ := hb i hi
      refine ⟨b, ?_, ?_⟩
      · rw [List.getElem?_set_ne (fun e => hic e.symm)]; exact hb1
      · rw [hb2, ageOf_after_tick hc hi hic, ageSum_snoc_tick_succ]
  · unfold RateCounter.Rate Counter.Value at *
    obtain ⟨m, rfl⟩ : ∃ m, R = m + 1 := ⟨R - 1, by omega⟩
    rw [sum_snoc_tick]
    rw [ageOf_nextIndex _ _ hc] at hpv
    simp only [Counter.Incr, htot, hpv, Nat.add_sub_cancel]
    exact wrap64_sub_neg _ _

theorem Windowed_run {R : Nat} {s0 : RateCounter} (hR : 1 ≤ R) (hR2 : R ≤ 2147483648)
    (h0 : Windowed R [] s0) (t : List Step) :
    ∃ s, runTrace s0 t = .ok s ∧ Windowed R t s := by
  induction t using List.reverseRecOn with
  | nil => exact ⟨s0, rfl, h0⟩
  | append_singleton t a ih =>
    obtain ⟨s, hs, hw⟩ := ih
    rw [runTrace_append, hs]
    cases a with
    | incr d =>
      obtain ⟨s1, h1, hw1⟩ := Windowed_incr d hR hw
      exact ⟨s1, by simp only [Outcome.bind, runTrace, applyStep, h1], hw1⟩
    | tick =>
      obtain ⟨s1, h1, hw1⟩ := Windowed_tick hR hR2 hw
      exact ⟨s1, by simp only [Outcome.bind, runTrace, applyStep, h1], hw1⟩

/-! ## The sliding window -/

theorem ticksIn_replicate (k : Nat) : ticksIn (List.replicate k Step.tick) = k := by
  induction k with
  | zero => rfl
  | succ k ih => rw [List.replicate_succ, ticksIn, ih]

theorem windowSum_replicate (R k : Nat) : windowSum R (List.replicate k Step.tick) = 0 := by
  induction k with
  | zero => rfl
  | succ k ih => rw [List.replicate_succ, windowSum, ih]

theorem windowSum_replicate_append (R k : Nat) (u : List Step) :
    windowSum R (List.replicate k Step.tick ++ u) = windowSum R u := by
  induction k with
  | zero => rfl
  | succ k ih => rw [List.replicate_succ, List.cons_append, windowSum, ih]

/-- The window of the trace `Incr(v1)`, `k` ticks, `Incr(v2)`, `m` ticks. -/
theorem windowSum_two (R k m : Nat) (v1 v2 : Int) :
    windowSum R (.incr v1 :: (List.replicate k Step.tick ++
        .incr v2 :: List.replicate m Step.tick))
      = (if k + m < R then v1 else 0) + (if m < R then v2 else 0) := by
  rw [windowSum, ticksIn_append, ticksIn_replicate, ticksIn, ticksIn_replicate,
    windowSum_replicate_append, windowSum, ticksIn_replicate, windowSum_replicate]
  omega

/-- The sliding window on a ring of at most 2^31 buckets: every trace of
`Incr` steps and ticks runs to its end, and `Rate()` is then the wrapping sum
of the deltas of the `Incr` steps that fewer than `R` ticks follow. -/
theorem runTrace_windowSum (ctx : Bool) (intrvl : Int) (R : Nat) (hR : 1 ≤ R)
    (hR2 : R ≤ 2147483648) (t : List Step) :
    ∃ s, runTrace (RateCounter.mk ⟨0⟩ intrvl R (List.replicate R ⟨0⟩) 0 0 ctx 0) t = .ok s ∧
      s.Rate = wrap64 (windowSum R t) ∧ Windowed R t s := by
  obtain ⟨s, hs, hw⟩ := Windowed_run hR hR2 (Windowed_init ctx intrvl R hR) t
  refine ⟨s, hs, ?_, hw⟩
  rw [windowSum_eq_sum]
  exact hw.2.2.choose_spec.2.2.2

/-- C1, amended: for every resolution `R` with `1 ≤ R ≤ 2^31` and every trace
of `Incr` steps and ticks on a new counter configured with resolution `R`, the
trace runs to its end and `Rate()` is the 64-bit wrapping sum of the deltas of
the `Incr` steps that fewer than `R` ticks follow. In particular `Incr(v1)`,
`k < R` ticks, `Incr(v2)` gives `v1 + v2`, and `R - k` further ticks give `v2`
when `k ≥ 1` and 0 when `k = 0`. -/
theorem Rate_eq_windowSum (ctx : Bool) (intrvl : Int) (R : Nat) (hR : 1 ≤ R)
    (hR2 : R ≤ 2147483648) :
    ∃ s0, newWithResolution ctx intrvl R = .ok s0 ∧
      (∀ t : List Step, ∃ s, runTrace s0 t = .ok s ∧ s.Rate = wrap64 (windowSum R t)) ∧
      (∀ (v1 v2 : Int) (k : Nat), k < R →
        (∃ s, runTrace s0 (.incr v1 :: (List.replicate k Step.tick ++ [.incr v2])) = .ok s ∧
          s.Rate = wrap64 (v1 + v2)) ∧
        (∃ s, runTrace s0 (.incr v1 :: (List.replicate k Step.tick ++
              .incr v2 :: List.replicate (R - k) Step.tick)) = .ok s ∧
          s.Rate = wrap64 (if 1 ≤ k then v2 else 0))) := by
  refine ⟨_, newWithResolution_eq ctx intrvl R (by omega) (maxSliceLen_of_bounded R hR2), ?_, ?_⟩
  · intro t
    rw [Int.toNat_ofNat]
    obtain ⟨s, hs, hrate, _⟩ := runTrace_windowSum ctx intrvl R hR hR2 t
    exact ⟨s, hs, hrate⟩
  · intro v1 v2 k hk
    rw [Int.toNat_ofNat]
    constructor
    · obtain ⟨s, hs, hrate, _⟩ := runTrace_windowSum ctx intrvl R hR hR2
        (.incr v1 :: (List.replicate k Step.tick ++ .incr v2 :: List.replicate 0 Step.tick))
      refine ⟨s, hs, ?_⟩
      rw [hrate, windowSum_two]
      have h1 : k + 0 < R := by omega
      have h2 : 0 < R := by omega
      simp only [h1, h2, if_true]
    · obtain ⟨s, hs, hrate, _⟩ := runTrace_windowSum ctx intrvl R hR hR2
        (.incr v1 :: (List.replicate k Step.tick ++ .incr v2 :: List.replicate (R - k) Step.tick))
      refine ⟨s, hs, ?_⟩
      rw [hrate, windowSum_two]
      have h1 : ¬ (k + (R - k) < R) := by omega
      by_cases h2 : 1 ≤ k
      · have h3 : R - k < R := by omega
        simp only [h1, h2, h3, if_true, if_false, zero_add]
      · have h3 : ¬ (R - k < R) := by omega
        simp only [h1, h2, h3, if_false, zero_add]

/-- Witness of the amended C1 at resolution 4. -/
theorem Rate_eq_windowSum_witness :
    1 ≤ 4 ∧ 4 ≤ 2147483648 ∧
    ∃ s0, newWithResolution false 50 (4 : Nat) = .ok s0 ∧
      (∀ t : List Step, ∃ s, runTrace s0 t = .ok s ∧ s.Rate = wrap64 (windowSum 4 t)) ∧
      (∀ (v1 v2 : Int) (k : Nat), k < 4 →
        (∃ s, runTrace s0 (.incr v1 :: (List.replicate k Step.tick ++ [.incr v2])) = .ok s ∧
          s.Rate = wrap64 (v1 + v2)) ∧
        (∃ s, runTrace s0 (.incr v1 :: (List.replicate k Step.tick ++
              .incr v2 :: List.replicate (4 - k) Step.tick)) = .ok s ∧
          s.Rate = wrap64 (if 1 ≤ k then v2 else 0))) :=
  ⟨by decide, by decide, Rate_eq_windowSum false 50 4 (by decide) (by decide)⟩

set_option maxRecDepth 8192 in
/-- C1 fails as stated at its own instance with `k = 0`: on a new counter
(resolution `R = 20`), `Incr(1)`, no tick, `Incr(2)` and then `R - k = 20`
ticks leave `Rate()` = 0, not `v2 = 2`. -/
theorem Rate_two_incrs_then_window :
    NewRateCounter false 50
      = .ok (RateCounter.mk ⟨0⟩ 50 20 (List.replicate 20 ⟨0⟩) 0 0 false 0) ∧
    runTrace (RateCounter.mk ⟨0⟩ 50 20 (List.replicate 20 ⟨0⟩) 0 0 false 0)
        (.incr 1 :: (List.replicate 0 Step.tick ++
          .incr 2 :: List.replicate (20 - 0) Step.tick))
      = .ok (RateCounter.mk ⟨0⟩ 50 20 (List.replicate 20 ⟨0⟩) 0 1 false 1) ∧
    (RateCounter.mk ⟨0⟩ 50 20 (List.replicate 20 ⟨0⟩) 0 1 false 1).Rate = 0 ∧
    (RateCounter.mk ⟨0⟩ 50 20 (List.replicate 20 ⟨0⟩) 0 1 false 1).Rate ≠ 2 := by
  refine ⟨rfl, ?_, rfl, by decide⟩
  decide

/-! ## The index of the current bucket -/

theorem index_neg {α : Type} (xs : List α) (i : Int) (h : i < 0) : index xs i = none := by
  unfold index
  have h1 : ¬ (0 ≤ i ∧ i < xs.length) := by omega
  simp only [h1, if_false]

/-- With a negative index of the current bucket, `Incr` panics on its slice
access, after it has added to the total. -/
theorem Incr_panics_of_neg (r : RateCounter) (val : Int) (h : r.current < 0) :
    r.Incr val = .panic .indexOutOfRange { r with counter := r.counter.Incr val } := by
  unfold RateCounter.Incr
  simp only [index_neg _ _ h]

/-- With a negative `next`, the tick panics on its slice access. -/
theorem tick_panics_of_neg (r : RateCounter) (h0 : r.resolution ≠ 0) (h : r.next < 0) :
    r.tick = .panic .indexOutOfRange r := by
  unfold RateCounter.next at h
  unfold RateCounter.tick
  simp only [h0, if_false, index_neg _ _ h]

/-- A call of `Incr` with the index in range returns normally and keeps the
index, the resolution and the number of buckets. -/
theorem Incr_in_range {s : RateCounter} {R c : Nat} (val : Int)
    (hres : s.resolution = (R : Int)) (hlen : s.partials.length = R)
    (hcur : s.current = (c : Int)) (hc : c < R) :
    ∃ s1, s.Incr val = .ok s1 ∧ s1.resolution = (R : Int) ∧
      s1.partials.length = R ∧ s1.current = (c : Int) := by
  obtain ⟨p, hp⟩ : ∃ p, s.partials[c]? = some p :=
    ⟨_, List.getElem?_eq_getElem (by omega)⟩
  have hidx : index s.partials s.current = some p := by
    rw [hcur, index_natCast]; exact hp
  refine ⟨_, Incr_of_index val hidx, ?_, ?_, ?_⟩
  · rw [run_resolution]; exact hres
  · rw [run_partials]; simp only [List.length_set]; exact hlen
  · rw [run_current]; exact hcur

/-- A tick with the index in range completes, keeps the resolution and the
number of buckets, and stores the next index converted to `int32`. -/
theorem tick_in_range {s : RateCounter} {R c : Nat}
    (hres : s.resolution = (R : Int)) (hlen : s.partials.length = R)
    (hcur : s.current = (c : Int)) (hc : c < R) :
    ∃ s1, s.tick = .ok s1 ∧ s1.resolution = (R : Int) ∧
      s1.partials.length = R ∧ s1.current = wrap32 (nextIndex R c : Int) ∧
      s.next = (nextIndex R c : Int) := by
  have hnext := next_eq_nextIndex hc hres hcur
  have hlt := nextIndex_lt R c (by omega)
  obtain ⟨p, hp⟩ : ∃ p, s.partials[nextIndex R c]? = some p :=
    ⟨_, List.getElem?_eq_getElem (by omega)⟩
  have hidx : index s.partials s.next = some p := by
    rw [hnext, index_natCast]; exact hp
  have h0 : s.resolution ≠ 0 := by rw [hres]; omega
  refine ⟨_, tick_of_index h0 hidx, hres, ?_, ?_, hnext⟩
  · simp only [List.length_set]; exact hlen
  · show wrap32 s.next = _
    rw [hnext]

/-- While the index stays below the resolution, `k` ticks advance it by `k`,
converted to `int32` when it is stored. -/
theorem ticks_advance {s : RateCounter} {R c : Nat} (k : Nat)
    (hres : s.resolution = (R : Int)) (hlen : s.partials.length = R)
    (hcur : s.current = (c : Int)) (hc : c < 2147483648)
    (h1 : c + k < R) (h2 : c + k ≤ 2147483648) :
    ∃ s1, runTrace s (List.replicate k Step.tick) = .ok s1 ∧
      s1.resolution = (R : Int) ∧ s1.partials.length = R ∧
      s1.current = wrap32 ((c + k : Nat) : Int) := by
  induction k with
  | zero =>
    refine ⟨s, rfl, hres, hlen, ?_⟩
    rw [hcur, Nat.add_zero]
    exact (wrap32_of_range _ (by omega) (by omega)).symm
  | succ k ih =>
    obtain ⟨s1, hs1, hres1, hlen1, hcur1⟩ := ih (by omega) (by omega)
    rw [wrap32_of_range _ (by omega) (by omega)] at hcur1
    obtain ⟨s2, hs2, hres2, hlen2, hcur2, _⟩ :=
      tick_in_range hres1 hlen1 hcur1 (by omega)
    refine ⟨s2, ?_, hres2, hlen2, ?_⟩
    · rw [List.replicate_succ', runTrace_append, hs1]
      simp only [Outcome.bind, runTrace, applyStep, hs2]
    · rw [hcur2]
      unfold nextIndex
      rw [if_pos (show c + k + 1 < R by omega)]
      rfl

/-- The state that `Incr(1)` and then 2^31 ticks reach on a counter with
2^31 + 1 buckets: the conversion `int32(next)` has stored -2^31 as index. -/
theorem wrapped_index_state (ctx : Bool) (intrvl : Int) :
    ∃ s, runTrace
        (RateCounter.mk ⟨0⟩ intrvl 2147483649 (List.replicate 2147483649 ⟨0⟩) 0 0 ctx 0)
        (.incr 1 :: List.replicate 2147483648 Step.tick) = .ok s ∧
      s.resolution = 2147483649 ∧ s.partials.length = 2147483649 ∧
      s.current = -2147483648 := by
  obtain ⟨s1, hs1, hres1, hlen1, hcur1⟩ := Incr_in_range
    (s := RateCounter.mk ⟨0⟩ intrvl 2147483649 (List.replicate 2147483649 ⟨0⟩) 0 0 ctx 0)
    (R := 2147483649) (c := 0) 1 rfl (List.length_replicate _ _) rfl (by omega)
  obtain ⟨s2, hs2, hres2, hlen2, hcur2⟩ := ticks_advance 2147483648 hres1 hlen1 hcur1
    (by omega) (by omega) (by omega)
  have hstep : applyStep
      (RateCounter.mk ⟨0⟩ intrvl 2147483649 (List.replicate 2147483649 ⟨0⟩) 0 0 ctx 0)
      (.incr 1) = .ok s1 := hs1
  refine ⟨s2, ?_, hres2, hlen2, ?_⟩
  · rw [runTrace_cons_ok _ hstep]
    exact hs2
  · rw [hcur2]
    unfold wrap32
    omega

theorem newWithResolution_big (ctx : Bool) (intrvl : Int) :
    newWithResolution ctx intrvl 2147483649
      = .ok (RateCounter.mk ⟨0⟩ intrvl 2147483649 (List.replicate 2147483649 ⟨0⟩) 0 0 ctx 0) :=
  newWithResolution_eq ctx intrvl 2147483649 (by decide) (by decide)

/-- C8 fails on the code: on a counter with 2^31 + 1 buckets (interval one
hour), `Incr(1)` and 2^31 ticks all complete and leave the current index at
-2^31, outside `[0, resolution)`; the next `Incr` and the next tick both panic
on their slice access. -/
theorem current_leaves_range :
    ∃ s0 s, newWithResolution false 3600000000000 2147483649 = .ok s0 ∧
      runTrace s0 (.incr 1 :: List.replicate 2147483648 Step.tick) = .ok s ∧
      s.resolution = 2147483649 ∧ s.partials.length = 2147483649 ∧
      s.current = -2147483648 ∧ ¬ (0 ≤ s.current) ∧
      s.Incr 1 = .panic .indexOutOfRange { s with counter := s.counter.Incr 1 } ∧
      s.tick = .panic .indexOutOfRange s := by
  obtain ⟨s, hs, hres, hlen, hcur⟩ := wrapped_index_state false 3600000000000
  refine ⟨_, s, newWithResolution_big _ _, hs, hres, hlen, hcur, ?_, ?_, ?_⟩
  · rw [hcur]; decide
  · exact Incr_panics_of_neg s 1 (by rw [hcur]; decide)
  · refine tick_panics_of_neg s (by rw [hres]; decide) ?_
    unfold RateCounter.next
    rw [hcur, hres]
    decide

/-- C3 fails on the code: on a counter with `R = 2^31 + 1` buckets, from the
state after `Incr(1)`, `R` consecutive ticks do not drain the counter: the
run ends in the index panic of the last tick. -/
theorem drain_panics :
    ∃ s0 s1 s, newWithResolution false 3600000000000 2147483649 = .ok s0 ∧
      s0.Incr 1 = .ok s1 ∧
      runTrace s1 (List.replicate 2147483649 Step.tick) = .panic .indexOutOfRange s := by
  obtain ⟨s1, hs1, hres1, hlen1, hcur1⟩ := Incr_in_range
    (s := RateCounter.mk ⟨0⟩ 3600000000000 2147483649 (List.replicate 2147483649 ⟨0⟩) 0 0 false 0)
    (R := 2147483649) (c := 0) 1 rfl (List.length_replicate _ _) rfl (by omega)
  obtain ⟨s2, hs2, hres2, hlen2, hcur2⟩ := ticks_advance 2147483648 hres1 hlen1 hcur1
    (by omega) (by omega) (by omega)
  have hcur3 : s2.current = -2147483648 := by
    rw [hcur2]; unfold wrap32; omega
  have hres3 : s2.resolution = 2147483649 := hres2
  have hpanic : applyStep s2 Step.tick = .panic .indexOutOfRange s2 := by
    refine tick_panics_of_neg s2 (by rw [hres3]; decide) ?_
    unfold RateCounter.next
    rw [hcur3, hres3]
    decide
  have hsplit : List.replicate 2147483649 Step.tick
      = List.replicate 2147483648 Step.tick ++ [Step.tick] :=
    List.replicate_succ' 2147483648 Step.tick
  refine ⟨_, s1, s2, newWithResolution_big _ _, hs1, ?_⟩
  rw [hsplit, runTrace_append_ok _ hs2]
  exact runTrace_cons_panic [] hpanic

/-! ## Rings of at most 2^31 buckets -/

theorem Windowed_current {R : Nat} {t : List Step} {s : RateCounter} (h : Windowed R t s) :
    s.resolution = (R : Int) ∧ s.partials.length = R ∧
      ∃ c : Nat, c < R ∧ s.current = (c : Int) := by
  obtain ⟨hres, hlen, c, hc, hcur, _⟩ := h
  exact ⟨hres, hlen, c, hc, hcur⟩

/-- Index safety on a ring of at most 2^31 buckets: in every state reached
from a new counter with resolution `R` by `Incr` steps and ticks, the current
index is in `[0, resolution)`, the ring has `resolution` buckets, and both
`Incr` and the tick complete. -/
theorem index_in_range_of_bounded_resolution (ctx : Bool) (intrvl : Int) (R : Nat)
    (hR : 1 ≤ R) (hR2 : R ≤ 2147483648) (t : List Step) :
    ∃ s0 s, newWithResolution ctx intrvl R = .ok s0 ∧ runTrace s0 t = .ok s ∧
      0 ≤ s.current ∧ s.current < s.resolution ∧ s.resolution = (R : Int) ∧
      s.partials.length = R ∧
      (∀ d, ∃ s1, s.Incr d = .ok s1) ∧ ∃ s1, s.tick = .ok s1 := by
  obtain ⟨s, hs, hw⟩ := Windowed_run hR hR2 (Windowed_init ctx intrvl R hR) t
  obtain ⟨hres, hlen, c, hc, hcur⟩ := Windowed_current hw
  refine ⟨_, s, newWithResolution_eq ctx intrvl R (by omega) (maxSliceLen_of_bounded R hR2),
    by rw [Int.toNat_ofNat]; exact hs, ?_, ?_, hres, hlen, ?_, ?_⟩
  · rw [hcur]; omega
  · rw [hcur, hres]; omega
  · intro d
    obtain ⟨s1, h1, _⟩ := Windowed_incr d hR hw
    exact ⟨s1, h1⟩
  · obtain ⟨s1, h1, _⟩ := Windowed_tick hR hR2 hw
    exact ⟨s1, h1⟩

theorem ageSum_append_ticks (j k : Nat) (t : List Step) :
    ageSum j (t ++ List.replicate k Step.tick)
      = if j < k then 0 else ageSum (j - k) t := by
  induction k generalizing j with
  | zero => simp
  | succ k ih =>
    rw [List.replicate_succ', ← List.append_assoc]
    cases j with
    | zero => rw [ageSum_snoc_tick_zero]; simp
    | succ j =>
      rw [ageSum_snoc_tick_succ, ih]
      by_cases h : j < k
      · have h2 : j + 1 < k + 1 := by omega
        simp only [h, h2, if_true]
      · have h2 : ¬ (j + 1 < k + 1) := by omega
        simp only [h, h2, if_false, Nat.add_sub_add_right]

theorem nextIndex_eq_mod (R c : Nat) (hc : c < R) : nextIndex R c = (c + 1) % R := by
  unfold nextIndex
  split
  · rename_i h
    exact (Nat.mod_eq_of_lt h).symm
  · have h : c + 1 = R := by omega
    rw [h, Nat.mod_self]

theorem expiredBy_eq {s : RateCounter} {R c : Nat} (k : Nat) (hR2 : R ≤ 2147483648)
    (hres : s.resolution = (R : Int)) (hlen : s.partials.length = R)
    (hcur : s.current = (c : Int)) (hc : c < R) :
    expiredBy k s = (List.range k).map (fun j => (((c + 1 + j) % R : Nat) : Int)) := by
  induction k generalizing s c with
  | zero => rfl
  | succ k ih =>
    obtain ⟨s1, hs1, hres1, hlen1, hcur1, hnext⟩ := tick_in_range hres hlen hcur hc
    have hlt := nextIndex_lt R c (by omega)
    rw [wrap32_of_range _ (by omega) (by omega)] at hcur1
    rw [expiredBy, hs1]
    simp only
    rw [ih hres1 hlen1 hcur1 hlt, List.range_succ_eq_map, List.map_cons, List.map_map,
      hnext, nextIndex_eq_mod R c hc]
    congr 1
    apply List.map_congr_left
    intro j _
    simp only [Function.comp, Nat.succ_eq_add_one]
    rw [Nat.add_assoc ((c + 1) % R), Nat.mod_add_mod, Nat.add_comm 1 j]

theorem rotation_perm (R c : Nat) :
    ((List.range R).map (fun j => (c + 1 + j) % R)).Perm (List.range R) := by
  apply List.Subperm.perm_of_length_le
  · apply List.subperm_of_subset
    · apply List.Nodup.map_on _ (List.nodup_range R)
      intro x hx y hy hxy
      rw [List.mem_range] at hx hy
      have h1 : x ≡ y [MOD R] := Nat.ModEq.add_left_cancel' (c + 1) hxy
      have h2 : x % R = y % R := h1
      rwa [Nat.mod_eq_of_lt hx, Nat.mod_eq_of_lt hy] at h2
    · intro x hx
      rw [List.mem_map] at hx
      obtain ⟨j, hj, rfl⟩ := hx
      rw [List.mem_range] at hj ⊢
      exact Nat.mod_lt _ (by omega)
  · simp

/-- The full-window drain on a ring of at most 2^31 buckets: from every state
reached from a new counter with resolution `R`, `R` consecutive ticks expire
every bucket exactly once, and `R` or more consecutive ticks all complete and
leave `Rate()` = 0 and every bucket at 0. -/
theorem drain_of_bounded_resolution (ctx : Bool) (intrvl : Int) (R : Nat)
    (hR : 1 ≤ R) (hR2 : R ≤ 2147483648) (t : List Step) :
    ∃ s0 s, newWithResolution ctx intrvl R = .ok s0 ∧ runTrace s0 t = .ok s ∧
      (expiredBy R s).Perm ((List.range R).map (fun i : Nat => (i : Int))) ∧
      ∀ m, ∃ s1, runTrace s (List.replicate (R + m) Step.tick) = .ok s1 ∧
        s1.Rate = 0 ∧ ∀ b ∈ s1.partials, b.Value = 0 := by
  obtain ⟨s, hs, hw⟩ := Windowed_run hR hR2 (Windowed_init ctx intrvl R hR) t
  obtain ⟨hres, hlen, c, hc, hcur⟩ := Windowed_current hw
  refine ⟨_, s, newWithResolution_eq ctx intrvl R (by omega) (maxSliceLen_of_bounded R hR2),
    by rw [Int.toNat_ofNat]; exact hs, ?_, ?_⟩
  · rw [expiredBy_eq R hR2 hres hlen hcur hc]
    have h := (rotation_perm R c).map (fun i : Nat => (i : Int))
    rw [List.map_map] at h
    exact h
  · intro m
    obtain ⟨s1, hs1, hw1⟩ := Windowed_run hR hR2 (Windowed_init ctx intrvl R hR)
      (t ++ List.replicate (R + m) Step.tick)
    rw [runTrace_append_ok _ hs] at hs1
    obtain ⟨_, hlen1, c1, hc1, _, hb1, htot1⟩ := hw1
    refine ⟨s1, hs1, ?_, ?_⟩
    · rw [htot1]
      have hz : ∀ j ∈ Finset.range R,
          ageSum j (t ++ List.replicate (R + m) Step.tick) = 0 := by
        intro j hj
        rw [Finset.mem_range] at hj
        rw [ageSum_append_ticks, if_pos (by omega)]
      rw [Finset.sum_eq_zero hz]
      rfl
    · intro b hb
      obtain ⟨i, hi⟩ := List.getElem?_of_mem hb
      have hilt : i < R := by
        by_contra hge
        rw [List.getElem?_eq_none (by omega)] at hi
        cases hi
      obtain ⟨b1, hb2, hb3⟩ := hb1 i hilt
      rw [hi] at hb2
      cases hb2
      rw [hb3, ageSum_append_ticks, if_pos]
      · rfl
      · unfold ageOf
        split <;> omega

/-! ## The running flag -/

theorem Incr_running {r s : RateCounter} {val : Int} (h : r.Incr val = .ok s)
    (hr : r.running = 0 ∨ r.running = 1) : s.running = 1 := by
  obtain ⟨p, _, rfl⟩ := Incr_eq_ok h
  exact run_running _ hr

theorem tick_running {r s : RateCounter} (h : r.tick = .ok s) : s.running = r.running := by
  obtain ⟨_, p, _, rfl⟩ := tick_eq_ok h
  rfl

theorem WithResolution_running {r s : RateCounter} {n : Int}
    (h : r.WithResolution n = .ok s) :
    s.running = r.running ∧ s.goroutines = r.goroutines ∧ s.ctx = r.ctx := by
  by_cases h1 : n < 1
  · rw [WithResolution_of_lt_one r n h1] at h
    cases h
  · by_cases h2 : maxSliceLen < n
    · rw [WithResolution_of_large r n h2] at h
      cases h
    · rw [WithResolution_of_range r n (by omega) (by omega)] at h
      cases Outcome.ok.inj h
      exact ⟨rfl, rfl, rfl⟩

/-- Without `done` and `cancel`, an operation that returns leaves the flag at
1 when it is an `Incr`, and as it was otherwise. -/
theorem applyOp_running {r s : RateCounter} {op : Op} (h : applyOp r op = .ok s)
    (hop : op ≠ .done ∧ op ≠ .cancel) (hr : r.running = 0 ∨ r.running = 1) :
    (s.running = 0 ∨ s.running = 1) ∧
      (s.running = 1 ↔ (r.running = 1 ∨ ∃ v, op = .Incr v)) := by
  cases op with
  | Incr v =>
    have h1 := Incr_running h hr
    exact ⟨Or.inr h1, fun _ => Or.inr ⟨v, rfl⟩, fun _ => h1⟩
  | Rate =>
    cases Outcome.ok.inj h
    exact ⟨hr, fun h1 => Or.inl h1, fun h1 => h1.elim id (fun ⟨v, hv⟩ => by cases hv)⟩
  | String =>
    cases Outcome.ok.inj h
    exact ⟨hr, fun h1 => Or.inl h1, fun h1 => h1.elim id (fun ⟨v, hv⟩ => by cases hv)⟩
  | WithResolution n =>
    have h1 := (WithResolution_running h).1
    rw [h1]
    exact ⟨hr, fun h1 => Or.inl h1, fun h1 => h1.elim id (fun ⟨v, hv⟩ => by cases hv)⟩
  | tick =>
    have h1 := tick_running h
    rw [h1]
    exact ⟨hr, fun h1 => Or.inl h1, fun h1 => h1.elim id (fun ⟨v, hv⟩ => by cases hv)⟩
  | done => exact absurd rfl hop.1
  | cancel => exact absurd rfl hop.2

theorem runOps_running {r s : RateCounter} {ops : List Op} (h : runOps r ops = .ok s)
    (hops : ∀ op ∈ ops, op ≠ .done ∧ op ≠ .cancel)
    (hr : r.running = 0 ∨ r.running = 1) :
    (s.running = 0 ∨ s.running = 1) ∧
      (s.running = 1 ↔ (r.running = 1 ∨ ∃ v, Op.Incr v ∈ ops)) := by
  induction ops generalizing r with
  | nil =>
    cases Outcome.ok.inj h
    refine ⟨hr, fun h1 => Or.inl h1, fun h1 => h1.elim id ?_⟩
    rintro ⟨v, hv⟩
    cases hv
  | cons a rest ih =>
    rw [runOps] at h
    cases ha : applyOp r a with
    | panic p r1 => rw [ha] at h; cases h
    | ok r1 =>
      rw [ha] at h
      obtain ⟨hr1, hiff1⟩ := applyOp_running ha (hops a (List.mem_cons_self _ _)) hr
      obtain ⟨hs, hiff⟩ := ih h (fun op hop => hops op (List.mem_cons_of_mem _ hop)) hr1
      refine ⟨hs, ?_⟩
      rw [hiff, hiff1]
      constructor
      · rintro ((h1 | ⟨v, rfl⟩) | ⟨v, hv⟩)
        · exact Or.inl h1
        · exact Or.inr ⟨v, List.mem_cons_self _ _⟩
        · exact Or.inr ⟨v, List.mem_cons_of_mem _ hv⟩
      · rintro (h1 | ⟨v, hv⟩)
        · exact Or.inl (Or.inl h1)
        · rcases List.mem_cons.mp hv with h2 | h2
          · exact Or.inl (Or.inr ⟨v, h2.symm⟩)
          · exact Or.inr ⟨v, h2⟩

/-- C9: in the step model without cancellation (no `cancel`, no `done`), in
every state reached from `NewRateCounter` the running flag is 1 exactly when
an `Incr` has been applied since construction, and 0 otherwise; `Rate()` and
`String()` leave the state as it is and `WithResolution` keeps the flag; once
the flag is 1 it stays 1 over every further sequence of such operations. -/
theorem running_iff_incr (ctx : Bool) (intrvl : Int) (s0 s : RateCounter) (ops : List Op)
    (h0 : NewRateCounter ctx intrvl = .ok s0)
    (hops : ∀ op ∈ ops, op ≠ .done ∧ op ≠ .cancel)
    (h : runOps s0 ops = .ok s) :
    (s.running = 1 ↔ ∃ v, Op.Incr v ∈ ops) ∧
    (s.running = 0 ↔ ¬ ∃ v, Op.Incr v ∈ ops) ∧
    applyOp s .Rate = .ok s ∧ applyOp s .String = .ok s ∧
    (∀ n s1, applyOp s (.WithResolution n) = .ok s1 → s1.running = s.running) ∧
    (∀ more s1, (∀ op ∈ more, op ≠ .done ∧ op ≠ .cancel) →
      runOps s more = .ok s1 → s.running = 1 → s1.running = 1) := by
  have hr0 : s0.running = 0 := by
    cases Outcome.ok.inj h0
    rfl
  obtain ⟨hs, hiff⟩ := runOps_running h hops (Or.inl hr0)
  have hiff2 : s.running = 1 ↔ ∃ v, Op.Incr v ∈ ops := by
    rw [hiff]
    constructor
    · rintro (h1 | h1)
      · rw [hr0] at h1; cases h1
      · exact h1
    · exact Or.inr
  refine ⟨hiff2, ?_, rfl, rfl, ?_, ?_⟩
  · rw [← hiff2]
    constructor
    · intro h1 h2
      rw [h1] at h2
      cases h2
    · intro h1
      rcases hs with h2 | h2
      · exact h2
      · exact absurd h2 h1
  · intro n s1 h1
    exact (WithResolution_running h1).1
  · intro more s1 hmore h1 h2
    exact (runOps_running h1 hmore hs).2.mpr (Or.inl h2)

/-- Witness of C9 on a counter with 4 buckets: after one `Incr` and a full
window of ticks `Rate()` is back to 0 and the flag is still 1. -/
theorem running_iff_incr_witness :
    runOps (RateCounter.mk ⟨0⟩ 50 20 (List.replicate 20 ⟨0⟩) 0 0 false 0)
        [.Rate, .String, .WithResolution 4, .Incr 1, .tick, .tick, .tick, .tick, .Rate]
      = .ok (RateCounter.mk ⟨0⟩ 50 4 [⟨0⟩, ⟨0⟩, ⟨0⟩, ⟨0⟩] 0 1 false 1) ∧
    ((RateCounter.mk ⟨0⟩ 50 4 [⟨0⟩, ⟨0⟩, ⟨0⟩, ⟨0⟩] 0 1 false 1).running = 1 ↔
      ∃ v, Op.Incr v ∈
        [Op.Rate, .String, .WithResolution 4, .Incr 1, .tick, .tick, .tick, .tick, .Rate]) :=
  ⟨by decide,
   (running_iff_incr false 50 _ _
      [.Rate, .String, .WithResolution 4, .Incr 1, .tick, .tick, .tick, .tick, .Rate]
      (NewRateCounter_eq false 50) (by decide) (by decide)).1⟩

/-! ## After the cancellation -/

/-- C10 fails as stated: on a new counter, `Incr(1)`, the cancellation of the
context and its observation by the rotation goroutine leave `running` = 0 and
no goroutine; every one of these steps is enabled; one more `Incr(1)` sets
`running` back to 1 and starts a new rotation goroutine. -/
theorem Incr_restarts_after_cancel :
    enabledOps (RateCounter.mk ⟨0⟩ 50 20 (List.replicate 20 ⟨0⟩) 0 0 false 0)
        [.Incr 1, .cancel, .done, .Incr 1] = true ∧
    (∃ s, runOps (RateCounter.mk ⟨0⟩ 50 20 (List.replicate 20 ⟨0⟩) 0 0 false 0)
        [.Incr 1, .cancel, .done] = .ok s ∧
      s.ctx = true ∧ s.running = 0 ∧ s.goroutines = 0 ∧
      ∃ s1, applyOp s (.Incr 1) = .ok s1 ∧ s1.running = 1 ∧ s1.goroutines = 1) := by
  refine ⟨by decide, _, rfl, rfl, rfl, rfl, _, rfl, rfl, rfl⟩

/-- While the operations are `Rate`, `String` and `WithResolution`, the flag,
the goroutines and the context stay as they are. -/
theorem runOps_readers {r s : RateCounter} {ops : List Op}
    (hops : ∀ op ∈ ops, op = .Rate ∨ op = .String ∨ ∃ n, op = .WithResolution n)
    (h : runOps r ops = .ok s) :
    s.running = r.running ∧ s.goroutines = r.goroutines ∧ s.ctx = r.ctx := by
  induction ops generalizing r with
  | nil =>
    cases Outcome.ok.inj h
    exact ⟨rfl, rfl, rfl⟩
  | cons a rest ih =>
    rw [runOps] at h
    cases ha : applyOp r a with
    | panic p r1 => rw [ha] at h; cases h
    | ok r1 =>
      rw [ha] at h
      obtain ⟨h1, h2, h3⟩ := ih (fun op hop => hops op (List.mem_cons_of_mem _ hop)) h
      have hstep : r1.running = r.running ∧ r1.goroutines = r.goroutines ∧ r1.ctx = r.ctx := by
        rcases hops a (List.mem_cons_self _ _) with rfl | rfl | ⟨n, rfl⟩
        · cases Outcome.ok.inj ha
          exact ⟨rfl, rfl, rfl⟩
        · cases Outcome.ok.inj ha
          exact ⟨rfl, rfl, rfl⟩
        · exact WithResolution_running ha
      exact ⟨h1.trans hstep.1, h2.trans hstep.2.1, h3.trans hstep.2.2⟩

/-- C10, amended: once the context is cancelled and the rotation goroutine
has observed it (`running` = 0, no goroutine left), no sequence of `Rate`,
`String` and `WithResolution` calls sets `running` or starts a goroutine; an
`Incr` that returns does set `running` to 1 and starts one new goroutine; the
context stays cancelled, so that goroutine can observe it at once, and its
`done` step sets `running` to 0 again and leaves no goroutine. -/
theorem stopped_after_cancel (r : RateCounter)
    (hctx : r.ctx = true) (hrun : r.running = 0) (hgo : r.goroutines = 0) :
    (∀ ops s, (∀ op ∈ ops, op = .Rate ∨ op = .String ∨ ∃ n, op = .WithResolution n) →
      runOps r ops = .ok s → s.running = 0 ∧ s.goroutines = 0 ∧ s.ctx = true) ∧
    (∀ val s, applyOp r (.Incr val) = .ok s →
      s.running = 1 ∧ s.goroutines = 1 ∧ s.ctx = true ∧
      Op.enabled s .done = true ∧
      s.done.running = 0 ∧ s.done.goroutines = 0 ∧ s.done.ctx = true) := by
  constructor
  · intro ops s hops h
    obtain ⟨h1, h2, h3⟩ := runOps_readers hops h
    exact ⟨h1.trans hrun, h2.trans hgo, h3.trans hctx⟩
  · intro val s h
    obtain ⟨p, _, rfl⟩ := Incr_eq_ok h
    have hs : RateCounter.run { r with
        counter := r.counter.Incr val
        partials := r.partials.set r.current.toNat (p.Incr val) }
        = { r with
        counter := r.counter.Incr val
        partials := r.partials.set r.current.toNat (p.Incr val)
        running := 1
        goroutines := r.goroutines + 1 } := by
      unfold RateCounter.run
      simp only [hrun, if_true]
    rw [hs]
    refine ⟨rfl, ?_, hctx, ?_, rfl, ?_, hctx⟩
    · show r.goroutines + 1 = 1
      rw [hgo]
    · show (decide (0 < r.goroutines + 1) && r.ctx) = true
      rw [hctx, hgo]
      rfl
    · show r.goroutines + 1 - 1 = 0
      rw [hgo]

/-- Witness of the amended C10 at the state a new counter has after
`Incr(1)`, the cancellation and its observation. -/
theorem stopped_after_cancel_witness :
    runOps (RateCounter.mk ⟨0⟩ 50 20 (List.replicate 20 ⟨0⟩) 0 0 false 0)
        [.Incr 1, .cancel, .done]
      = .ok (RateCounter.mk ⟨1⟩ 50 20 (⟨1⟩ :: List.replicate 19 ⟨0⟩) 0 0 true 0) ∧
    (∀ val s, applyOp (RateCounter.mk ⟨1⟩ 50 20 (⟨1⟩ :: List.replicate 19 ⟨0⟩) 0 0 true 0)
        (.Incr val) = .ok s →
      s.running = 1 ∧ s.goroutines = 1 ∧ s.ctx = true ∧
      Op.enabled s .done = true ∧
      s.done.running = 0 ∧ s.done.goroutines = 0 ∧ s.done.ctx = true) :=
  ⟨by decide,
   (stopped_after_cancel (RateCounter.mk ⟨1⟩ 50 20 (⟨1⟩ :: List.replicate 19 ⟨0⟩) 0 0 true 0)
      rfl rfl rfl).2⟩

/-! ## The rotation goroutines -/

theorem applyOp_flagMatches {r s : RateCounter} {op : Op} (h : applyOp r op = .ok s)
    (hr : flagMatchesGoroutines r) : flagMatchesGoroutines s := by
  cases op with
  | Incr v =>
    obtain ⟨p, _, rfl⟩ := Incr_eq_ok h
    rcases hr with ⟨h1, h2⟩ | ⟨h1, h2⟩
    · rw [run_of_zero _ (by exact h1)]
      refine Or.inr ⟨rfl, ?_⟩
      show r.goroutines + 1 = 1
      rw [h2]
    · have h3 : r.running ≠ 0 := by rw [h1]; decide
      rw [run_of_ne_zero _ (by exact h3)]
      exact Or.inr ⟨h1, h2⟩
  | Rate => cases Outcome.ok.inj h; exact hr
  | String => cases Outcome.ok.inj h; exact hr
  | WithResolution n =>
    obtain ⟨h1, h2, _⟩ := WithResolution_running h
    unfold flagMatchesGoroutines
    rw [h1, h2]
    exact hr
  | tick =>
    obtain ⟨_, p, _, rfl⟩ := tick_eq_ok h
    exact hr
  | done =>
    cases Outcome.ok.inj h
    refine Or.inl ⟨rfl, ?_⟩
    show r.goroutines - 1 = 0
    rcases hr with ⟨_, h2⟩ | ⟨_, h2⟩ <;> rw [h2]
  | cancel => cases Outcome.ok.inj h; exact hr

theorem runOps_flagMatches {r s : RateCounter} {ops : List Op} (h : runOps r ops = .ok s)
    (hr : flagMatchesGoroutines r) : flagMatchesGoroutines s := by
  induction ops generalizing r with
  | nil => cases Outcome.ok.inj h; exact hr
  | cons a rest ih =>
    rw [runOps] at h
    cases ha : applyOp r a with
    | panic p r1 => rw [ha] at h; cases h
    | ok r1 =>
      rw [ha] at h
      exact ih h (applyOp_flagMatches ha hr)

/-- C11: in the step model that counts the live rotation goroutines, every
state reached from `NewRateCounter` by any sequence of operations (calls of
the API, ticks, cancellation, and `done`, the only step by which a goroutine
exits) has at most one live goroutine, exactly one when `running` = 1 and
none when `running` = 0; an `Incr` applied while `running` = 1 starts none,
and one applied while `running` = 0 starts exactly one. -/
theorem at_most_one_goroutine (ctx : Bool) (intrvl : Int) (s0 s : RateCounter)
    (ops : List Op) (h0 : NewRateCounter ctx intrvl = .ok s0)
    (h : runOps s0 ops = .ok s) :
    s.goroutines ≤ 1 ∧
    (s.running = 1 → s.goroutines = 1) ∧ (s.running = 0 → s.goroutines = 0) ∧
    (s.running = 0 ∨ s.running = 1) ∧
    (∀ val s1, s.running = 1 → applyOp s (.Incr val) = .ok s1 →
      s1.goroutines = s.goroutines ∧ s1.running = 1) ∧
    (∀ val s1, s.running = 0 → applyOp s (.Incr val) = .ok s1 →
      s1.goroutines = s.goroutines + 1 ∧ s1.running = 1) := by
  have hinit : flagMatchesGoroutines s0 := by
    cases Outcome.ok.inj h0
    exact Or.inl ⟨rfl, rfl⟩
  have hs := runOps_flagMatches h hinit
  refine ⟨?_, ?_, ?_, ?_, ?_, ?_⟩
  · rcases hs with ⟨_, h2⟩ | ⟨_, h2⟩
    · rw [h2]; decide
    · rw [h2]
  · intro h1
    rcases hs with ⟨h2, _⟩ | ⟨_, h2⟩
    · rw [h1] at h2; cases h2
    · exact h2
  · intro h1
    rcases hs with ⟨_, h2⟩ | ⟨h2, _⟩
    · exact h2
    · rw [h1] at h2; cases h2
  · rcases hs with ⟨h2, _⟩ | ⟨h2, _⟩
    · exact Or.inl h2
    · exact Or.inr h2
  · intro val s1 hrun h1
    obtain ⟨p, _, rfl⟩ := Incr_eq_ok h1
    have h3 : s.running ≠ 0 := by rw [hrun]; decide
    rw [run_of_ne_zero _ (by exact h3)]
    exact ⟨rfl, hrun⟩
  · intro val s1 hrun h1
    obtain ⟨p, _, rfl⟩ := Incr_eq_ok h1
    rw [run_of_zero _ (by exact hrun)]
    exact ⟨rfl, rfl⟩

/-- Witness of C11: two calls of `Incr`, the cancellation, its observation
and a third `Incr` leave one live goroutine. -/
theorem at_most_one_goroutine_witness :
    runOps (RateCounter.mk ⟨0⟩ 50 20 (List.replicate 20 ⟨0⟩) 0 0 false 0)
        [.Incr 1, .Incr 2, .cancel, .done, .Incr 3]
      = .ok (RateCounter.mk ⟨6⟩ 50 20 (⟨6⟩ :: List.replicate 19 ⟨0⟩) 0 1 true 1) ∧
    (RateCounter.mk ⟨6⟩ 50 20 (⟨6⟩ :: List.replicate 19 ⟨0⟩) 0 1 true 1).goroutines ≤ 1 :=
  ⟨by decide,
   (at_most_one_goroutine false 50 _ _ [.Incr 1, .Incr 2, .cancel, .done, .Incr 3]
      (NewRateCounter_eq false 50) (by decide)).1⟩

/-! ## The frame of `Incr` and of the tick -/

theorem index_set_self {α : Type} {xs : List α} {i : Int} {p : α} (q : α)
    (h : index xs i = some p) : index (xs.set i.toNat q) i = some q := by
  obtain ⟨h1, h2, _⟩ := index_eq_some h
  unfold index
  have h3 : 0 ≤ i ∧ i < ((xs.set i.toNat q).length : Int) := by
    rw [List.length_set]
    omega
  rw [if_pos h3]
  exact List.getElem?_set_self h2

/-- C17: for every state whose current index is in range and every delta `d`,
`Incr(d)` returns normally, adds `d` (wrapping) to the total and to the bucket
at the current index only, and leaves every other bucket, the number of
buckets, the current index, the resolution, the interval and the context as
they are; the running flag (0 or 1 before) is 1 afterwards. -/
theorem Incr_frame (r : RateCounter) (d : Int) (h1 : 0 ≤ r.current)
    (h2 : r.current < r.partials.length) (hrun : r.running = 0 ∨ r.running = 1) :
    ∃ s b, r.Incr d = .ok s ∧ r.partials[r.current.toNat]? = some b ∧
      s.Rate = wrap64 (r.Rate + d) ∧
      s.partials[r.current.toNat]? = some ⟨wrap64 (b.Value + d)⟩ ∧
      (∀ i : Nat, i ≠ r.current.toNat → s.partials[i]? = r.partials[i]?) ∧
      s.partials.length = r.partials.length ∧
      s.current = r.current ∧ s.resolution = r.resolution ∧
      s.interval = r.interval ∧ s.ctx = r.ctx ∧ s.running = 1 := by
  have hlt : r.current.toNat < r.partials.length := by omega
  obtain ⟨b, hb⟩ : ∃ b, r.partials[r.current.toNat]? = some b :=
    ⟨_, List.getElem?_eq_getElem hlt⟩
  have hidx : index r.partials r.current = some b := by
    unfold index
    rw [if_pos ⟨h1, h2⟩]
    exact hb
  refine ⟨_, b, Incr_of_index d hidx, hb, ?_, ?_, ?_, ?_, ?_, ?_, ?_, ?_, ?_⟩
  · unfold RateCounter.Rate
    rw [run_counter]
    rfl
  · rw [run_partials]
    exact List.getElem?_set_self hlt
  · intro i hi
    rw [run_partials]
    exact List.getElem?_set_ne (fun e => hi e.symm)
  · rw [run_partials]
    exact List.length_set _ _ _
  · rw [run_current]
  · rw [run_resolution]
  · rw [run_interval]
  · rw [run_ctx]
  · exact run_running _ hrun

/-- Witness of C17 on a counter with 4 buckets whose current index is 2. -/
theorem Incr_frame_witness :
    ∃ s b, (RateCounter.mk ⟨7⟩ 50 4 [⟨1⟩, ⟨2⟩, ⟨4⟩, ⟨0⟩] 2 1 false 1).Incr 5 = .ok s ∧
      [Counter.mk 1, ⟨2⟩, ⟨4⟩, ⟨0⟩][(2 : Int).toNat]? = some b ∧
      s.Rate = wrap64 (7 + 5) ∧
      s.partials[(2 : Int).toNat]? = some ⟨wrap64 (b.Value + 5)⟩ ∧
      (∀ i : Nat, i ≠ (2 : Int).toNat → s.partials[i]? = [Counter.mk 1, ⟨2⟩, ⟨4⟩, ⟨0⟩][i]?) ∧
      s.partials.length = 4 ∧ s.current = 2 ∧ s.resolution = 4 ∧
      s.interval = 50 ∧ s.ctx = false ∧ s.running = 1 :=
  Incr_frame (RateCounter.mk ⟨7⟩ 50 4 [⟨1⟩, ⟨2⟩, ⟨4⟩, ⟨0⟩] 2 1 false 1) 5
    (by decide) (by decide) (Or.inr rfl)

/-! ## Batching of `Incr` calls -/

theorem Counter_Incr_Incr (c : Counter) (a b : Int) :
    (c.Incr a).Incr b = c.Incr (wrap64 (a + b)) := by
  unfold Counter.Incr
  simp only [Counter.mk.injEq]
  unfold wrap64
  omega

theorem run_update_run (r : RateCounter) (c : Counter) (ps : List Counter) :
    RateCounter.run { r.run with counter := c, partials := ps }
      = RateCounter.run { r with counter := c, partials := ps } := by
  cases r with
  | mk c0 i res ps0 cur rn cx g =>
    unfold RateCounter.run
    by_cases h : rn = 0 <;> simp [h]

/-- Two calls of `Incr` in a row are one call with the wrapped sum. -/
theorem Incr_Incr {r : RateCounter} {p : Counter} (a b : Int)
    (h : index r.partials r.current = some p) :
    (r.Incr a).bind (fun s => s.Incr b) = r.Incr (wrap64 (a + b)) := by
  rw [Incr_of_index a h, Incr_of_index (wrap64 (a + b)) h]
  simp only [Outcome.bind]
  have h2 : index
      (RateCounter.run { r with
        counter := r.counter.Incr a
        partials := r.partials.set r.current.toNat (p.Incr a) }).partials
      (RateCounter.run { r with
        counter := r.counter.Incr a
        partials := r.partials.set r.current.toNat (p.Incr a) }).current
      = some (p.Incr a) := by
    rw [run_partials, run_current]
    exact index_set_self _ h
  rw [Incr_of_index b h2, run_update_run, run_counter, run_partials, run_current]
  simp only [List.set_set, Counter_Incr_Incr]

/-- The values of a state are 64-bit integers. -/
theorem Windowed_values {R : Nat} {t : List Step} {s : RateCounter} (h : Windowed R t s) :
    wrap64 s.counter.value = s.counter.value ∧
      ∀ (i : Nat) (b : Counter), s.partials[i]? = some b → wrap64 b.value = b.value := by
  obtain ⟨_, hlen, c, _, _, hb, htot⟩ := h
  constructor
  · unfold RateCounter.Rate Counter.Value at htot
    rw [htot]
    exact wrap64_idem _
  · intro i b hib
    have hi : i < R := by
      by_contra hge
      rw [List.getElem?_eq_none (by omega)] at hib
      cases hib
    obtain ⟨b1, hb1, hb2⟩ := hb i hi
    rw [hib] at hb1
    cases hb1
    unfold Counter.Value at hb2
    rw [hb2]
    exact wrap64_idem _

theorem set_of_getElem? {α : Type} {xs : List α} {i : Nat} {p : α}
    (h : xs[i]? = some p) : xs.set i p = xs := by
  apply List.ext_getElem?
  intro n
  by_cases hn : i = n
  · subst hn
    rw [List.getElem?_set_self (List.getElem?_eq_some_iff.mp h).1, h]
  · rw [List.getElem?_set_ne hn]

/-- `Incr(d)` followed by `Incr(-d)` gives back the total and the buckets of a
state whose values are 64-bit integers. -/
theorem Incr_compensate {r : RateCounter} {p : Counter} (d : Int)
    (h : index r.partials r.current = some p)
    (hc : wrap64 r.counter.value = r.counter.value) (hp : wrap64 p.value = p.value) :
    ∃ s, (r.Incr d).bind (fun s1 => s1.Incr (wrap64 (-d))) = .ok s ∧
      s.counter = r.counter ∧ s.partials = r.partials ∧ s.current = r.current := by
  rw [Incr_Incr d (wrap64 (-d)) h, Incr_of_index _ h]
  have h0 : wrap64 (d + wrap64 (-d)) = 0 := by unfold wrap64; omega
  refine ⟨_, rfl, ?_, ?_, ?_⟩
  · rw [run_counter, h0]
    show Counter.mk (wrap64 (r.counter.value + 0)) = r.counter
    rw [add_zero, hc]
  · rw [run_partials, h0]
    have h1 : p.Incr 0 = p := by
      show Counter.mk (wrap64 (p.value + 0)) = p
      rw [add_zero, hp]
    show r.partials.set r.current.toNat (p.Incr 0) = r.partials
    rw [h1]
    exact set_of_getElem? (index_eq_some h).2.2
  · rw [run_current]

/-- C20: in every state reached from a new counter by `Incr` steps and ticks,
and for all deltas `a`, `b`, `d`: `Incr(a)` then `Incr(b)`, `Incr(b)` then
`Incr(a)`, and the single call `Incr(a + b)` with the wrapping sum all return
normally with one and the same state (total, every bucket, current index,
running flag); and `Incr(d)` followed by `Incr(-d)` leaves the total, every
bucket and the current index as they were. -/
theorem Incr_batching (ctx : Bool) (intrvl : Int) (s0 s : RateCounter) (t : List Step)
    (h0 : NewRateCounter ctx intrvl = .ok s0) (h : runTrace s0 t = .ok s)
    (a b d : Int) :
    (∃ s2, (s.Incr a).bind (fun s1 => s1.Incr b) = .ok s2 ∧
      (s.Incr b).bind (fun s1 => s1.Incr a) = .ok s2 ∧
      s.Incr (wrap64 (a + b)) = .ok s2) ∧
    (∃ s3, (s.Incr d).bind (fun s1 => s1.Incr (wrap64 (-d))) = .ok s3 ∧
      s3.counter = s.counter ∧ s3.partials = s.partials ∧ s3.current = s.current) := by
  rw [NewRateCounter_eq] at h0
  cases Outcome.ok.inj h0
  obtain ⟨s', hs', hw⟩ := Windowed_run (R := 20) (by decide) (by decide)
    (Windowed_init ctx intrvl 20 (by decide)) t
  have hs : runTrace (RateCounter.mk ⟨0⟩ intrvl 20 (List.replicate 20 ⟨0⟩) 0 0 ctx 0) t
      = .ok s' := hs'
  rw [h] at hs
  cases Outcome.ok.inj hs
  obtain ⟨hres, hlen, c, hc, hcur⟩ := Windowed_current hw
  obtain ⟨hv1, hv2⟩ := Windowed_values hw
  obtain ⟨p, hp⟩ : ∃ p, s.partials[c]? = some p :=
    ⟨_, List.getElem?_eq_getElem (by omega)⟩
  have hidx : index s.partials s.current = some p := by
    rw [hcur, index_natCast]; exact hp
  constructor
  · refine ⟨_, ?_, ?_, Incr_of_index _ hidx⟩
    · rw [Incr_Incr a b hidx]
      exact Incr_of_index _ hidx
    · rw [Incr_Incr b a hidx, add_comm b a]
      exact Incr_of_index _ hidx
  · exact Incr_compensate d hidx hv1 (hv2 c p hp)

/-- Witness of C20 in the state a new counter has after `Incr(4)` and a tick. -/
theorem Incr_batching_witness :
    runTrace (RateCounter.mk ⟨0⟩ 50 20 (List.replicate 20 ⟨0⟩) 0 0 false 0) [.incr 4, .tick]
      = .ok (RateCounter.mk ⟨4⟩ 50 20 (⟨4⟩ :: List.replicate 19 ⟨0⟩) 1 1 false 1) ∧
    (∃ s2, ((RateCounter.mk ⟨4⟩ 50 20 (⟨4⟩ :: List.replicate 19 ⟨0⟩) 1 1 false 1).Incr 2).bind
          (fun s1 => s1.Incr (-3)) = .ok s2 ∧
      ((RateCounter.mk ⟨4⟩ 50 20 (⟨4⟩ :: List.replicate 19 ⟨0⟩) 1 1 false 1).Incr (-3)).bind
          (fun s1 => s1.Incr 2) = .ok s2 ∧
      (RateCounter.mk ⟨4⟩ 50 20 (⟨4⟩ :: List.replicate 19 ⟨0⟩) 1 1 false 1).Incr
          (wrap64 (2 + -3)) = .ok s2) :=
  ⟨by decide,
   (Incr_batching false 50 _ _ [.incr 4, .tick] (NewRateCounter_eq false 50) (by decide)
      2 (-3) 5).1⟩

/-! ## The rotation tick as a step -/

theorem wrap64_sub (x y : Int) : wrap64 (x + wrap64 (-1 * y)) = wrap64 (x - y) := by
  unfold wrap64; omega

/-- The rotation tick on a ring of at most 2^31 buckets: for every state with
resolution `R`, `R` buckets and current index `c < R`, the tick completes with
`next = (c + 1) mod R`, takes the value bucket `next` held from the total,
sets that bucket to 0 and makes `next` the current index; the other buckets,
the resolution, the interval, the flag, the context and the goroutines are
unchanged. -/
theorem tick_spec_of_bounded_resolution (r : RateCounter) (R c : Nat)
    (hR2 : R ≤ 2147483648) (hres : r.resolution = (R : Int))
    (hlen : r.partials.length = R) (hcur : r.current = (c : Int)) (hc : c < R) :
    ∃ s b, r.tick = .ok s ∧ r.next = (((c + 1) % R : Nat) : Int) ∧
      r.partials[(c + 1) % R]? = some b ∧
      s.Rate = wrap64 (r.Rate - b.Value) ∧
      s.partials[(c + 1) % R]? = some ⟨0⟩ ∧
      (∀ i : Nat, i ≠ (c + 1) % R → s.partials[i]? = r.partials[i]?) ∧
      s.partials.length = R ∧ s.current = (((c + 1) % R : Nat) : Int) ∧
      s.resolution = r.resolution ∧ s.interval = r.interval ∧
      s.running = r.running ∧ s.ctx = r.ctx ∧ s.goroutines = r.goroutines := by
  have hnext := next_eq_nextIndex hc hres hcur
  rw [nextIndex_eq_mod R c hc] at hnext
  have hlt : (c + 1) % R < R := Nat.mod_lt _ (by omega)
  obtain ⟨b, hb⟩ : ∃ b, r.partials[(c + 1) % R]? = some b :=
    ⟨_, List.getElem?_eq_getElem (by omega)⟩
  have hidx : index r.partials r.next = some b := by
    rw [hnext, index_natCast]; exact hb
  have h0 : r.resolution ≠ 0 := by rw [hres]; omega
  have hnat : r.next.toNat = (c + 1) % R := by rw [hnext]; rfl
  refine ⟨_, b, tick_of_index h0 hidx, hnext, hb, ?_, ?_, ?_, ?_, ?_, rfl, rfl, rfl, rfl, rfl⟩
  · exact wrap64_sub _ _
  · show (r.partials.set r.next.toNat b.Reset)[(c + 1) % R]? = _
    rw [hnat]
    exact List.getElem?_set_self (by omega)
  · intro i hi
    show (r.partials.set r.next.toNat b.Reset)[i]? = _
    rw [hnat]
    exact List.getElem?_set_ne (fun e => hi e.symm)
  · show (r.partials.set r.next.toNat b.Reset).length = R
    rw [List.length_set]
    exact hlen
  · show wrap32 r.next = _
    rw [hnext]
    exact wrap32_of_range _ (by omega) (by omega)

/-- C16 fails on the code: on a counter with `R = 2^31 + 1` buckets (interval
one hour), `Incr(1)` and 2^31 - 1 ticks reach a state with current index
`c = 2^31 - 1` in `[0, R)`; there the tick computes `next = 2^31` and
completes, but the current index it stores is -2^31, not `next`. -/
theorem tick_stores_wrapped_index :
    ∃ s0 s s1, newWithResolution false 3600000000000 2147483649 = .ok s0 ∧
      runTrace s0 (.incr 1 :: List.replicate 2147483647 Step.tick) = .ok s ∧
      s.resolution = 2147483649 ∧ s.partials.length = 2147483649 ∧
      s.current = 2147483647 ∧ s.next = 2147483648 ∧
      s.tick = .ok s1 ∧ s1.current = -2147483648 ∧ s1.current ≠ s.next := by
  obtain ⟨s1, hs1, hres1, hlen1, hcur1⟩ := Incr_in_range
    (s := RateCounter.mk ⟨0⟩ 3600000000000 2147483649 (List.replicate 2147483649 ⟨0⟩) 0 0 false 0)
    (R := 2147483649) (c := 0) 1 rfl (List.length_replicate _ _) rfl (by omega)
  obtain ⟨s2, hs2, hres2, hlen2, hcur2⟩ := ticks_advance 2147483647 hres1 hlen1 hcur1
    (by omega) (by omega) (by omega)
  have hcur3 : s2.current = ((2147483647 : Nat) : Int) := by
    rw [hcur2]; unfold wrap32; omega
  obtain ⟨s3, hs3, _, _, hcur4, hnext⟩ := tick_in_range hres2 hlen2 hcur3 (by omega)
  have hni : nextIndex 2147483649 2147483647 = 2147483648 := by decide
  rw [hni] at hcur4 hnext
  have hstep : applyStep
      (RateCounter.mk ⟨0⟩ 3600000000000 2147483649 (List.replicate 2147483649 ⟨0⟩) 0 0 false 0)
      (.incr 1) = .ok s1 := hs1
  have hc5 : s3.current = -2147483648 := by
    rw [hcur4]; unfold wrap32; omega
  refine ⟨_, s2, s3, newWithResolution_big _ _, ?_, hres2, hlen2, hcur3, hnext, hs3, hc5, ?_⟩
  · rw [runTrace_cons_ok _ hstep]
    exact hs2
  · rw [hc5, hnext]
    decide

/-! ## The total after a reconfiguration -/

theorem bucketSum_of_zero {r : RateCounter} (h : ∀ b ∈ r.partials, b.Value = 0) :
    bucketSum r = 0 := by
  unfold bucketSum
  generalize r.partials = ps at h
  induction ps with
  | nil => rfl
  | cons x rest ih =>
    rw [List.map_cons, List.sum_cons, h x (List.mem_cons_self _ _),
      ih (fun b hb => h b (List.mem_cons_of_mem _ hb))]
    rfl

/-- On a ring of at most 2^31 buckets that are all 0, any number of ticks
complete, keep every bucket at 0 and keep the total. -/
theorem ticks_on_zero_ring {s : RateCounter} {R c : Nat} (k : Nat)
    (hR2 : R ≤ 2147483648) (hres : s.resolution = (R : Int))
    (hlen : s.partials.length = R) (hcur : s.current = (c : Int)) (hc : c < R)
    (hz : ∀ b ∈ s.partials, b.Value = 0) (hT : wrap64 s.Rate = s.Rate) :
    ∃ s1, runTrace s (List.replicate k Step.tick) = .ok s1 ∧
      (∀ b ∈ s1.partials, b.Value = 0) ∧ s1.Rate = s.Rate ∧
      s1.resolution = (R : Int) ∧ s1.partials.length = R ∧
      ∃ c1 : Nat, c1 < R ∧ s1.current = (c1 : Int) := by
  induction k with
  | zero => exact ⟨s, rfl, hz, rfl, hres, hlen, c, hc, hcur⟩
  | succ k ih =>
    obtain ⟨s1, hs1, hz1, hrate1, hres1, hlen1, c1, hc1, hcur1⟩ := ih
    obtain ⟨s2, b, hs2, _, hb, hrate2, _, _, hlen2, hcur2, hres2, _⟩ :=
      tick_spec_of_bounded_resolution s1 R c1 hR2 hres1 hlen1 hcur1 hc1
    have hbz : b.Value = 0 := hz1 b (List.mem_iff_getElem?.mpr ⟨_, hb⟩)
    obtain ⟨_, p, hp, hs2eq⟩ := tick_eq_ok hs2
    refine ⟨s2, ?_, ?_, ?_, hres2.trans hres1, hlen2, (c1 + 1) % R,
      Nat.mod_lt _ (by omega), hcur2⟩
    · rw [List.replicate_succ', runTrace_append_ok _ hs1]
      exact runTrace_cons_ok [] hs2
    · intro x hx
      rw [hs2eq] at hx
      rcases List.mem_or_eq_of_mem_set hx with h1 | h1
      · exact hz1 x h1
      · rw [h1]; rfl
    · rw [hrate2, hbz, sub_zero, hrate1]
      exact hT

/-- C18 fails as stated: on a new counter, `Incr(3)`, `WithResolution(4)` and
then 4 rotation ticks leave every bucket at 0 and `Rate()` = 3: the total does
not come back to the sum of the buckets. -/
theorem stale_total_after_window :
    runOps (RateCounter.mk ⟨0⟩ 50 20 (List.replicate 20 ⟨0⟩) 0 0 false 0)
        [.Incr 3, .WithResolution 4, .tick, .tick, .tick, .tick]
      = .ok (RateCounter.mk ⟨3⟩ 50 4 [⟨0⟩, ⟨0⟩, ⟨0⟩, ⟨0⟩] 0 1 false 1) ∧
    (RateCounter.mk ⟨3⟩ 50 4 [⟨0⟩, ⟨0⟩, ⟨0⟩, ⟨0⟩] 0 1 false 1).Rate = 3 ∧
    bucketSum (RateCounter.mk ⟨3⟩ 50 4 [⟨0⟩, ⟨0⟩, ⟨0⟩, ⟨0⟩] 0 1 false 1) = 0 ∧
    (RateCounter.mk ⟨3⟩ 50 4 [⟨0⟩, ⟨0⟩, ⟨0⟩, ⟨0⟩] 0 1 false 1).Rate ≠ 0 := by
  refine ⟨by decide, rfl, rfl, by decide⟩

/-- C18, amended: for every counter state whose total `T` is a 64-bit integer
and every `n` with `1 ≤ n ≤ 2^31`, `WithResolution(n)` returns normally, and
after any number `k` of rotation ticks with no `Incr` every bucket is 0 and
`Rate()` is still `T`: the stale total is not bounded by one window, and the
total equals the sum of the buckets exactly when `T` = 0. -/
theorem stale_total_is_kept (r : RateCounter) (n k : Nat) (hn : 1 ≤ n)
    (hn2 : n ≤ 2147483648) (hT : wrap64 r.Rate = r.Rate) :
    ∃ s1 s, r.WithResolution n = .ok s1 ∧
      runTrace s1 (List.replicate k Step.tick) = .ok s ∧
      (∀ b ∈ s.partials, b.Value = 0) ∧ bucketSum s = 0 ∧ s.Rate = r.Rate ∧
      (s.Rate = bucketSum s ↔ r.Rate = 0) := by
  have h1 : r.WithResolution n = .ok { r with
      resolution := (n : Int)
      partials := List.replicate (n : Int).toNat ⟨0⟩
      current := 0 } :=
    WithResolution_of_range r n (by omega) (maxSliceLen_of_bounded n hn2)
  rw [Int.toNat_ofNat] at h1
  obtain ⟨s, hs, hz, hrate, _⟩ := ticks_on_zero_ring
    (s := { r with
      resolution := (n : Int)
      partials := List.replicate n ⟨0⟩
      current := 0 })
    (R := n) (c := 0) k hn2 rfl (List.length_replicate _ _) rfl (by omega)
    (fun b hb => by rw [List.eq_of_mem_replicate hb]; rfl) hT
  have hrate2 : s.Rate = r.Rate := hrate
  refine ⟨_, s, h1, hs, hz, bucketSum_of_zero hz, hrate2, ?_⟩
  rw [bucketSum_of_zero hz, hrate2]

/-- Witness of the amended C18: a total of 3, `WithResolution(4)`, 4 ticks. -/
theorem stale_total_is_kept_witness :
    1 ≤ 4 ∧ 4 ≤ 2147483648 ∧
    ∃ s1 s, (RateCounter.mk ⟨3⟩ 50 20 (⟨3⟩ :: List.replicate 19 ⟨0⟩) 0 1 false 1).WithResolution
        ((4 : Nat) : Int) = .ok s1 ∧
      runTrace s1 (List.replicate 4 Step.tick) = .ok s ∧
      (∀ b ∈ s.partials, b.Value = 0) ∧ bucketSum s = 0 ∧
      s.Rate = (RateCounter.mk ⟨3⟩ 50 20 (⟨3⟩ :: List.replicate 19 ⟨0⟩) 0 1 false 1).Rate ∧
      (s.Rate = bucketSum s ↔
        (RateCounter.mk ⟨3⟩ 50 20 (⟨3⟩ :: List.replicate 19 ⟨0⟩) 0 1 false 1).Rate = 0) :=
  ⟨by decide, by decide,
   stale_total_is_kept (RateCounter.mk ⟨3⟩ 50 20 (⟨3⟩ :: List.replicate 19 ⟨0⟩) 0 1 false 1)
     4 4 (by decide) (by decide) (by decide)⟩

/-! ## Counters of non-negative deltas -/

theorem ageSum_bounds (j : Nat) (t : List Step) (hpos : ∀ d, Step.incr d ∈ t → 0 ≤ d) :
    0 ≤ ageSum j t ∧ ageSum j t ≤ deltaSum t := by
  induction t with
  | nil => exact ⟨le_refl _, le_refl _⟩
  | cons a rest ih =>
    obtain ⟨h1, h2⟩ := ih (fun d hd => hpos d (List.mem_cons_of_mem _ hd))
    cases a with
    | incr e =>
      have he : 0 ≤ e := hpos e (List.mem_cons_self _ _)
      rw [ageSum, deltaSum]
      split <;> omega
    | tick =>
      rw [ageSum, deltaSum]
      exact ⟨h1, h2⟩

theorem windowSum_bounds (R : Nat) (t : List Step) (hpos : ∀ d, Step.incr d ∈ t → 0 ≤ d) :
    0 ≤ windowSum R t ∧ windowSum R t ≤ deltaSum t := by
  induction t with
  | nil => exact ⟨le_refl _, le_refl _⟩
  | cons a rest ih =>
    obtain ⟨h1, h2⟩ := ih (fun d hd => hpos d (List.mem_cons_of_mem _ hd))
    cases a with
    | incr e =>
      have he : 0 ≤ e := hpos e (List.mem_cons_self _ _)
      rw [windowSum, deltaSum]
      split <;> omega
    | tick =>
      rw [windowSum, deltaSum]
      exact ⟨h1, h2⟩

/-- Non-negative deltas whose sum is below 2^63, on a ring of at most 2^31
buckets: every bucket and the total are non-negative, and the total is the
window sum itself, at most the sum of all deltas. -/
theorem Windowed_nonneg {R : Nat} {t : List Step} {s : RateCounter} (h : Windowed R t s)
    (hpos : ∀ d, Step.incr d ∈ t → 0 ≤ d) (hsum : deltaSum t < 9223372036854775808) :
    (∀ b ∈ s.partials, 0 ≤ b.Value) ∧ s.Rate = windowSum R t ∧
      0 ≤ s.Rate ∧ s.Rate ≤ deltaSum t := by
  obtain ⟨_, hlen, c, _, _, hb, htot⟩ := h
  obtain ⟨hw1, hw2⟩ := windowSum_bounds R t hpos
  have hrate : s.Rate = windowSum R t := by
    rw [htot, ← windowSum_eq_sum]
    exact wrap64_of_range _ (by omega) (by omega)
  refine ⟨?_, hrate, by rw [hrate]; exact hw1, by rw [hrate]; exact hw2⟩
  intro b hbmem
  obtain ⟨i, hi⟩ := List.getElem?_of_mem hbmem
  have hilt : i < R := by
    by_contra hge
    rw [List.getElem?_eq_none (by omega)] at hi
    cases hi
  obtain ⟨b1, hb1, hb2⟩ := hb i hilt
  rw [hi] at hb1
  cases hb1
  obtain ⟨ha1, ha2⟩ := ageSum_bounds (ageOf R c i) t hpos
  rw [hb2, wrap64_of_range _ (by omega) (by omega)]
  exact ha1

/-- C19: if every delta passed to `Incr` is non-negative and the sum of all
deltas is below 2^63, then in every state reached from a new counter by `Incr`
steps and ticks every bucket is non-negative, `Rate()` is non-negative and
`Rate()` is at most the sum of all deltas recorded so far. -/
theorem Rate_nonneg (ctx : Bool) (intrvl : Int) (s0 s : RateCounter) (t : List Step)
    (h0 : NewRateCounter ctx intrvl = .ok s0) (h : runTrace s0 t = .ok s)
    (hpos : ∀ d, Step.incr d ∈ t → 0 ≤ d) (hsum : deltaSum t < 9223372036854775808) :
    (∀ b ∈ s.partials, 0 ≤ b.Value) ∧ 0 ≤ s.Rate ∧ s.Rate ≤ deltaSum t := by
  rw [NewRateCounter_eq] at h0
  cases Outcome.ok.inj h0
  obtain ⟨s', hs', hw⟩ := Windowed_run (R := 20) (by decide) (by decide)
    (Windowed_init ctx intrvl 20 (by decide)) t
  have hs : runTrace (RateCounter.mk ⟨0⟩ intrvl 20 (List.replicate 20 ⟨0⟩) 0 0 ctx 0) t
      = .ok s' := hs'
  rw [h] at hs
  cases Outcome.ok.inj hs
  obtain ⟨h1, _, h3, h4⟩ := Windowed_nonneg hw hpos hsum
  exact ⟨h1, h3, h4⟩

/-- Witness of C19: `Incr(4)`, a tick, `Incr(0)`, `Incr(5)`. -/
theorem Rate_nonneg_witness :
    runTrace (RateCounter.mk ⟨0⟩ 50 20 (List.replicate 20 ⟨0⟩) 0 0 false 0)
        [.incr 4, .tick, .incr 0, .incr 5]
      = .ok (RateCounter.mk ⟨9⟩ 50 20 (⟨4⟩ :: ⟨5⟩ :: List.replicate 18 ⟨0⟩) 1 1 false 1) ∧
    0 ≤ (RateCounter.mk ⟨9⟩ 50 20 (⟨4⟩ :: ⟨5⟩ :: List.replicate 18 ⟨0⟩) 1 1 false 1).Rate ∧
    (RateCounter.mk ⟨9⟩ 50 20 (⟨4⟩ :: ⟨5⟩ :: List.replicate 18 ⟨0⟩) 1 1 false 1).Rate
      ≤ deltaSum [.incr 4, .tick, .incr 0, .incr 5] :=
  ⟨by decide,
   (Rate_nonneg false 50 _ _ [.incr 4, .tick, .incr 0, .incr 5]
      (NewRateCounter_eq false 50) (by decide)
      (by intro d hd; simp at hd; omega) (by decide)).2⟩

/-! ## The lifetime of an event in the timed model -/

theorem evictionTime_bounds (R p τ : Nat) (hR : 1 ≤ R) (hp : 1 ≤ p) :
    τ < evictionTime R p τ ∧
    (R - 1) * p < evictionTime R p τ - τ ∧ evictionTime R p τ - τ ≤ R * p := by
  unfold evictionTime
  have h1 := Nat.div_add_mod τ p
  have h2 := Nat.mod_lt τ (show 0 < p by omega)
  obtain ⟨m, rfl⟩ : ∃ m, R = m + 1 := ⟨R - 1, by omega⟩
  rw [Nat.add_sub_cancel, Nat.add_mul, Nat.add_mul, Nat.one_mul, Nat.mul_comm (τ / p) p]
  generalize p * (τ / p) = x at h1 ⊢
  generalize m * p = y
  omega

/-- C13, amended: in the timed model with tick period `p ≥ 1` on a counter
with `1 ≤ R ≤ 2^31` buckets, the steps taken by any time `T ≥ τ` all complete
and `Rate()` at time `T` counts the first event exactly while `T < R * p` and
the event recorded at time `τ` exactly while `T` is before the `R`-th tick
after it; that event so contributes for more than `(R - 1) * p` and at most
`R * p`, which is more than `interval - interval / R` and at most `interval`
when `interval = R * p`. -/
theorem event_lifetime (ctx : Bool) (intrvl : Int) (R p : Nat) (hR : 1 ≤ R)
    (hR2 : R ≤ 2147483648) (hp : 1 ≤ p) (d0 d : Int) (τ T : Nat) (hT : τ ≤ T) :
    ∃ s0 s, newWithResolution ctx intrvl R = .ok s0 ∧
      runTrace s0 (timedTrace d0 p τ T d) = .ok s ∧
      s.Rate = wrap64 ((if T < R * p then d0 else 0) +
        (if T < evictionTime R p τ then d else 0)) ∧
      τ < evictionTime R p τ ∧
      (R - 1) * p < evictionTime R p τ - τ ∧ evictionTime R p τ - τ ≤ R * p ∧
      (∀ interval : Nat, interval = R * p →
        interval - interval / R < evictionTime R p τ - τ ∧
        evictionTime R p τ - τ ≤ interval) := by
  obtain ⟨s, hs, hrate, _⟩ := runTrace_windowSum ctx intrvl R hR hR2 (timedTrace d0 p τ T d)
  obtain ⟨hb0, hb1, hb2⟩ := evictionTime_bounds R p τ hR hp
  have hp0 : 0 < p := by omega
  have hdiv : τ / p ≤ T / p := Nat.div_le_div_right hT
  refine ⟨_, s, newWithResolution_eq ctx intrvl R (by omega) (maxSliceLen_of_bounded R hR2),
    by rw [Int.toNat_ofNat]; exact hs, ?_, hb0, hb1, hb2, ?_⟩
  · rw [hrate]
    unfold timedTrace
    rw [windowSum_two]
    have e1 : τ / p + (T / p - τ / p) = T / p := by omega
    have e2 : (T / p - τ / p < R) ↔ T < evictionTime R p τ := by
      unfold evictionTime
      rw [← Nat.div_lt_iff_lt_mul hp0]
      omega
    rw [e1]
    simp only [Nat.div_lt_iff_lt_mul hp0, e2]
  · intro interval hi
    have h3 : interval / R = p := by
      rw [hi]
      exact Nat.mul_div_cancel_left p (by omega)
    rw [h3]
    constructor
    · have h4 : interval - p = (R - 1) * p := by
        rw [hi, Nat.sub_mul, Nat.one_mul]
      rw [h4]
      exact hb1
    · rw [hi]
      exact hb2

/-- Witness of the amended C13: 4 buckets, period 12.5 ms, an event 10 ms
after the first one, observed at 45 ms. -/
theorem event_lifetime_witness :
    1 ≤ 4 ∧ 4 ≤ 2147483648 ∧ 1 ≤ 12500000 ∧ 10000000 ≤ 45000000 ∧
    ∃ s0 s, newWithResolution false 50000000 (4 : Nat) = .ok s0 ∧
      runTrace s0 (timedTrace 1 12500000 10000000 45000000 1) = .ok s ∧
      s.Rate = wrap64 ((if 45000000 < 4 * 12500000 then 1 else 0) +
        (if 45000000 < evictionTime 4 12500000 10000000 then 1 else 0)) ∧
      10000000 < evictionTime 4 12500000 10000000 ∧
      (4 - 1) * 12500000 < evictionTime 4 12500000 10000000 - 10000000 ∧
      evictionTime 4 12500000 10000000 - 10000000 ≤ 4 * 12500000 ∧
      (∀ interval : Nat, interval = 4 * 12500000 →
        interval - interval / 4 < evictionTime 4 12500000 10000000 - 10000000 ∧
        evictionTime 4 12500000 10000000 - 10000000 ≤ interval) :=
  ⟨by decide, by decide, by decide, by decide,
   event_lifetime false 50000000 4 12500000 (by decide) (by decide) (by decide) 1 1
     10000000 45000000 (by decide)⟩

/-- C13 fails as stated: with interval 50 ms, 4 buckets and so a tick every
12.5 ms, an event recorded 10 ms after the start is gone from `Rate()` at
50 ms, only 40 ms after it was recorded: less than `interval`. -/
theorem event_evicted_before_interval :
    runTrace (RateCounter.mk ⟨0⟩ 50000000 4 (List.replicate 4 ⟨0⟩) 0 0 false 0)
        (timedTrace 1 12500000 10000000 50000000 1)
      = .ok (RateCounter.mk ⟨0⟩ 50000000 4 (List.replicate 4 ⟨0⟩) 0 1 false 1) ∧
    (RateCounter.mk ⟨0⟩ 50000000 4 (List.replicate 4 ⟨0⟩) 0 1 false 1).Rate = 0 ∧
    50000000 - 10000000 < 50000000 ∧
    50000000 / 4 = 12500000 := by
  refine ⟨by decide, rfl, by decide, by decide⟩

/-! ## The creation of the ticker -/

theorem roundFloat64_zero : roundFloat64 0 = 0 := by
  unfold roundFloat64
  rw [if_pos rfl]

theorem roundFloat64_five : roundFloat64 5 = 5 := by
  unfold roundFloat64 binade roundHalfEven
  norm_num [abs_of_pos, Nat.log2]

theorem roundFloat64_twenty : roundFloat64 20 = 20 := by
  unfold roundFloat64 binade roundHalfEven
  norm_num [abs_of_pos, Nat.log2]

theorem roundFloat64_quarter : roundFloat64 (1 / 4) = 1 / 4 := by
  unfold roundFloat64 binade roundHalfEven
  norm_num [abs_of_pos, Nat.log2]

/-- With interval 0 the period of the ticker is 0, whatever the resolution. -/
theorem tickerPeriod_zero_interval (outOfRange : Int) (r : RateCounter)
    (h0 : r.resolution ≠ 0) (hi : r.interval = 0) : tickerPeriod outOfRange r = 0 := by
  unfold tickerPeriod
  rw [if_neg h0, hi, Int.cast_zero, roundFloat64_zero, zero_div, roundFloat64_zero]
  rfl

/-- With interval 5 ns and resolution 20 the period of the ticker is 0. -/
theorem tickerPeriod_five (outOfRange : Int) (r : RateCounter)
    (hr : r.resolution = 20) (hi : r.interval = 5) : tickerPeriod outOfRange r = 0 := by
  unfold tickerPeriod
  have h5 : ((5 : Int) : ℚ) = 5 := by norm_num
  have h20 : ((20 : Int) : ℚ) = 20 := by norm_num
  have hq : (5 : ℚ) / 20 = 1 / 4 := by norm_num
  rw [if_neg (by rw [hr]; decide), hi, hr, h5, h20, roundFloat64_five,
    roundFloat64_twenty, hq, roundFloat64_quarter]
  unfold toInt64
  have ht : Int.tdiv ((1 : ℚ) / 4).num ((1 : ℚ) / 4).den = 0 := by
    norm_num
    decide
  simp only [ht]
  exact if_pos (by decide)

/-- C12 fails on the code: with interval 0, as in `BenchmarkRateCounter`, the
construction succeeds and the first `Incr` returns and starts the rotation
goroutine, but the period of its ticker is 0 and `time.NewTicker` panics; the
same happens with a positive interval below the resolution (5 ns for 20
buckets). -/
theorem NewTicker_panics_on_zero_interval (outOfRange : Int) :
    (∃ r s, NewRateCounter false 0 = .ok r ∧ r.Incr 1 = .ok s ∧
      s.running = 1 ∧ s.goroutines = 1 ∧ tickerPeriod outOfRange s = 0 ∧
      s.startTicker outOfRange = .panic .nonPositiveInterval s) ∧
    (∃ r s, NewRateCounter false 5 = .ok r ∧ r.Incr 1 = .ok s ∧
      s.running = 1 ∧ s.goroutines = 1 ∧ tickerPeriod outOfRange s = 0 ∧
      s.startTicker outOfRange = .panic .nonPositiveInterval s) := by
  constructor
  · have hp : tickerPeriod outOfRange
        (RateCounter.mk ⟨1⟩ 0 20 (⟨1⟩ :: List.replicate 19 ⟨0⟩) 0 1 false 1) = 0 :=
      tickerPeriod_zero_interval _ _ (by decide) rfl
    refine ⟨_, RateCounter.mk ⟨1⟩ 0 20 (⟨1⟩ :: List.replicate 19 ⟨0⟩) 0 1 false 1,
      rfl, by decide, rfl, rfl, hp, ?_⟩
    unfold RateCounter.startTicker
    rw [hp]
    rfl
  · have hp : tickerPeriod outOfRange
        (RateCounter.mk ⟨1⟩ 5 20 (⟨1⟩ :: List.replicate 19 ⟨0⟩) 0 1 false 1) = 0 :=
      tickerPeriod_five _ _ rfl rfl
    refine ⟨_, RateCounter.mk ⟨1⟩ 5 20 (⟨1⟩ :: List.replicate 19 ⟨0⟩) 0 1 false 1,
      rfl, by decide, rfl, rfl, hp, ?_⟩
    unfold RateCounter.startTicker
    rw [hp]
    rfl

theorem roundFloat64_test_interval : roundFloat64 50000000 = 50000000 := by
  unfold roundFloat64 binade roundHalfEven
  norm_num [abs_of_pos, Nat.log2]

theorem roundFloat64_test_period : roundFloat64 2500000 = 2500000 := by
  unfold roundFloat64 binade roundHalfEven
  norm_num [abs_of_pos, Nat.log2]

/-- With the interval of the tests (50 ms) and the default resolution the
period of the ticker is 2.5 ms, and the ticker is created. -/
theorem startTicker_test_interval (outOfRange : Int) (r : RateCounter)
    (hr : r.resolution = 20) (hi : r.interval = 50000000) :
    tickerPeriod outOfRange r = 2500000 ∧ r.startTicker outOfRange = .ok r := by
  have hp : tickerPeriod outOfRange r = 2500000 := by
    unfold tickerPeriod
    have h1 : ((50000000 : Int) : ℚ) = 50000000 := by norm_num
    have h20 : ((20 : Int) : ℚ) = 20 := by norm_num
    have hq : (50000000 : ℚ) / 20 = 2500000 := by norm_num
    rw [if_neg (by rw [hr]; decide), hi, hr, h1, h20, roundFloat64_test_interval,
      roundFloat64_twenty, hq, roundFloat64_test_period]
    unfold toInt64
    have ht : Int.tdiv (2500000 : ℚ).num (2500000 : ℚ).den = 2500000 := by
      norm_num
    simp only [ht]
    exact if_pos (by decide)
  refine ⟨hp, ?_⟩
  unfold RateCounter.startTicker
  rw [hp]
  rfl

/-! ## The text of the total -/

theorem digitValue_digitChar (k : Nat) (hk : k < 10) :
    digitValue (Nat.digitChar k) = some k := by
  interval_cases k <;> decide

theorem digitChar_ne_zero (k : Nat) (h0 : 0 < k) (hk : k < 10) : Nat.digitChar k ≠ '0' := by
  interval_cases k <;> decide

theorem toDigitsCore_append (fuel n : Nat) (ds : List Char) :
    Nat.toDigitsCore 10 fuel n ds = Nat.toDigitsCore 10 fuel n [] ++ ds := by
  induction fuel generalizing n ds with
  | zero => rfl
  | succ fuel ih =>
    unfold Nat.toDigitsCore
    by_cases h : n / 10 = 0
    · simp only [h, if_true, List.singleton_append]
    · simp only [h, if_false]
      rw [ih (n / 10) (Nat.digitChar (n % 10) :: ds), ih (n / 10) [Nat.digitChar (n % 10)],
        List.append_assoc, List.singleton_append]

theorem toDigitsCore_succ (fuel n : Nat) :
    Nat.toDigitsCore 10 (fuel + 1) n []
      = if n / 10 = 0 then [Nat.digitChar (n % 10)]
        else Nat.toDigitsCore 10 fuel (n / 10) [] ++ [Nat.digitChar (n % 10)] := by
  rw [Nat.toDigitsCore]
  by_cases h : n / 10 = 0
  · simp only [h, if_true]
  · simp only [h, if_false]
    exact toDigitsCore_append fuel (n / 10) _

theorem parseDigitsFrom_append (acc : Nat) (xs ys : List Char) :
    parseDigitsFrom acc (xs ++ ys)
      = match parseDigitsFrom acc xs with
        | some a => parseDigitsFrom a ys
        | none => none := by
  induction xs generalizing acc with
  | nil => rfl
  | cons c cs ih =>
    rw [List.cons_append, parseDigitsFrom, parseDigitsFrom]
    cases digitValue c with
    | none => rfl
    | some v => exact ih _

theorem parseDigitsFrom_toDigitsCore (fuel n : Nat) (h : n < fuel) :
    parseDigitsFrom 0 (Nat.toDigitsCore 10 fuel n []) = some n := by
  induction fuel generalizing n with
  | zero => omega
  | succ fuel ih =>
    rw [toDigitsCore_succ]
    have hd := digitValue_digitChar (n % 10) (Nat.mod_lt _ (by decide))
    by_cases h0 : n / 10 = 0
    · rw [if_pos h0, parseDigitsFrom, hd]
      simp only [parseDigitsFrom]
      congr 1
      omega
    · rw [if_neg h0, parseDigitsFrom_append, ih (n / 10) (by omega)]
      simp only [parseDigitsFrom, hd]
      congr 1
      omega

theorem toDigitsCore_ne_nil (fuel n : Nat) : Nat.toDigitsCore 10 (fuel + 1) n [] ≠ [] := by
  rw [toDigitsCore_succ]
  split
  · exact List.cons_ne_nil _ _
  · intro h
    have := congrArg List.length h
    simp at this

theorem toDigitsCore_head (fuel n : Nat) (h : n < fuel) (h0 : 0 < n) :
    (Nat.toDigitsCore 10 fuel n []).head? ≠ some '0' := by
  induction fuel generalizing n with
  | zero => omega
  | succ fuel ih =>
    rw [toDigitsCore_succ]
    by_cases hz : n / 10 = 0
    · rw [if_pos hz]
      have hn : n % 10 = n := Nat.mod_eq_of_lt (by omega)
      rw [hn]
      intro hh
      have h1 : Nat.digitChar n = '0' := by
        simpa using hh
      exact digitChar_ne_zero n h0 (by omega) h1
    · rw [if_neg hz]
      have hpos : 0 < n / 10 := Nat.pos_of_ne_zero hz
      have hlt : n / 10 < fuel := by omega
      have hne : Nat.toDigitsCore 10 fuel (n / 10) [] ≠ [] := by
        cases fuel with
        | zero => omega
        | succ f => exact toDigitsCore_ne_nil f _
      rw [List.head?_append_of_ne_nil _ hne]
      exact ih (n / 10) hlt hpos

theorem digitChar_ne_minus (k : Nat) (hk : k < 10) : Nat.digitChar k ≠ '-' := by
  interval_cases k <;> decide

theorem toDigitsCore_head_digit (fuel n : Nat) :
    ∃ k rest, k < 10 ∧ Nat.toDigitsCore 10 (fuel + 1) n [] = Nat.digitChar k :: rest := by
  induction fuel generalizing n with
  | zero =>
    refine ⟨n % 10, [], Nat.mod_lt _ (by decide), ?_⟩
    rw [toDigitsCore_succ]
    split
    · rfl
    · rfl
  | succ fuel ih =>
    rw [toDigitsCore_succ]
    by_cases hz : n / 10 = 0
    · rw [if_pos hz]
      exact ⟨n % 10, [], Nat.mod_lt _ (by decide), rfl⟩
    · rw [if_neg hz]
      obtain ⟨k, rest, hk, he⟩ := ih (n / 10)
      rw [he]
      exact ⟨k, rest ++ [Nat.digitChar (n % 10)], hk, rfl⟩

/-- The digits `Nat.toDigits 10 n` read back as `n`, start with a digit, and
have no leading zero. -/
theorem toDigits_spec (n : Nat) :
    parseDecimal (Nat.toDigits 10 n) = some n ∧
      (∃ k rest, k < 10 ∧ Nat.toDigits 10 n = Nat.digitChar k :: rest) ∧
      noLeadingZero (Nat.toDigits 10 n) ∧ (0 < n → Nat.toDigits 10 n ≠ ['0']) := by
  unfold Nat.toDigits
  obtain ⟨k, rest, hk, he⟩ := toDigitsCore_head_digit n n
  have hparse := parseDigitsFrom_toDigitsCore (n + 1) n (by omega)
  refine ⟨?_, ⟨k, rest, hk, he⟩, ?_, ?_⟩
  · rw [he] at hparse ⊢
    exact hparse
  · by_cases h0 : n = 0
    · subst h0
      exact Or.inl rfl
    · exact Or.inr ⟨toDigitsCore_ne_nil n n,
        toDigitsCore_head (n + 1) n (by omega) (Nat.pos_of_ne_zero h0)⟩
  · intro hpos he0
    have h1 := toDigitsCore_head (n + 1) n (by omega) hpos
    rw [he0] at h1
    exact h1 rfl

/-- C14: for every counter state whose total is a 64-bit integer, `String()`
is the decimal text of the value `Rate()` returns: read as a signed 64-bit
decimal it gives `Rate()`; a negative total gives `-` followed by digits
without leading zero, a non-negative one digits without leading zero and no
sign; and `String()` leaves the counter as it is. -/
theorem String_is_decimal_of_Rate (r : RateCounter)
    (h1 : -9223372036854775808 ≤ r.Rate) (h2 : r.Rate < 9223372036854775808) :
    r.String = strconv.FormatInt r.Rate 10 ∧
    parseInt64 r.String = some r.Rate ∧
    (r.Rate < 0 → ∃ ds, r.String.data = '-' :: ds ∧ noLeadingZero ds ∧ ds ≠ ['0']) ∧
    (0 ≤ r.Rate → noLeadingZero r.String.data ∧ r.String.data.head? ≠ some '-') ∧
    applyOp r .String = .ok r := by
  refine ⟨rfl, ?_, ?_, ?_, rfl⟩
  · unfold RateCounter.String strconv.FormatInt
    unfold RateCounter.Rate at h1 h2 ⊢
    by_cases hneg : r.counter.Value < 0
    · obtain ⟨hp, _, _, _⟩ := toDigits_spec r.counter.Value.natAbs
      rw [if_pos hneg]
      unfold parseInt64
      simp only [if_true, hp]
      have hb : r.counter.Value.natAbs ≤ 9223372036854775808 := by omega
      rw [if_pos hb]
      congr 1
      omega
    · obtain ⟨hp, ⟨k, rest, hk, he⟩, _, _⟩ := toDigits_spec r.counter.Value.toNat
      rw [if_neg hneg]
      unfold parseInt64
      rw [he] at hp ⊢
      simp only [digitChar_ne_minus k hk, if_false, hp]
      have hb : r.counter.Value.toNat < 9223372036854775808 := by omega
      rw [if_pos hb]
      congr 1
      omega
  · intro hneg
    unfold RateCounter.String strconv.FormatInt
    unfold RateCounter.Rate at hneg
    rw [if_pos hneg]
    obtain ⟨_, _, hnz, hne⟩ := toDigits_spec r.counter.Value.natAbs
    exact ⟨_, rfl, hnz, hne (by omega)⟩
  · intro hpos
    unfold RateCounter.String strconv.FormatInt
    unfold RateCounter.Rate at hpos
    rw [if_neg (by omega)]
    obtain ⟨_, ⟨k, rest, hk, he⟩, hnz, _⟩ := toDigits_spec r.counter.Value.toNat
    refine ⟨hnz, ?_⟩
    show (Nat.toDigits 10 r.counter.Value.toNat).head? ≠ some '-'
    rw [he]
    intro hh
    exact digitChar_ne_minus k hk (by simpa using hh)

/-- Witness of C14 on the total -42: the text is `-42`. -/
theorem String_is_decimal_of_Rate_witness :
    (RateCounter.mk ⟨-42⟩ 50 20 (List.replicate 20 ⟨0⟩) 0 1 false 1).String.data
      = ['-', '4', '2'] ∧
    parseInt64 (RateCounter.mk ⟨-42⟩ 50 20 (List.replicate 20 ⟨0⟩) 0 1 false 1).String
      = some (RateCounter.mk ⟨-42⟩ 50 20 (List.replicate 20 ⟨0⟩) 0 1 false 1).Rate :=
  ⟨by decide,
   (String_is_decimal_of_Rate (RateCounter.mk ⟨-42⟩ 50 20 (List.replicate 20 ⟨0⟩) 0 1 false 1)
      (by decide) (by decide)).2.1⟩

/-! ## Interleavings of concurrent calls of `Incr` -/

/-- The four atomic operations of one call, done in a row, are `Incr`. -/
theorem runSchedule_single (r s : RateCounter) (d : Int) (h : r.Incr d = .ok s) :
    runSchedule (r, [IncrCall.mk d 0 0]) [0, 0, 0, 0]
      = .ok (s, [IncrCall.mk d 4 r.current]) := by
  obtain ⟨p, hp, rfl⟩ := Incr_eq_ok h
  simp only [runSchedule, stepCaller, IncrCall.step, Outcome.bind, List.getElem?_cons_zero,
    List.set_cons_zero, hp]

theorem addedSum_set {cs : List IncrCall} {i : Nat} {c : IncrCall} (c1 : IncrCall)
    (h : cs[i]? = some c) :
    addedSum (cs.set i c1) = addedSum cs - (if 1 ≤ c.pc then c.val else 0)
      + (if 1 ≤ c1.pc then c1.val else 0) :=
  sum_map_set (fun c : IncrCall => if 1 ≤ c.pc then c.val else 0) cs i c c1 h

theorem map_val_set {cs : List IncrCall} {i : Nat} {c : IncrCall} (c1 : IncrCall)
    (h : cs[i]? = some c) (hv : c1.val = c.val) :
    (cs.set i c1).map IncrCall.val = cs.map IncrCall.val := by
  rw [List.map_set, hv]
  exact set_of_getElem? (by rw [List.getElem?_map, h]; rfl)

theorem mem_set_cases {cs : List IncrCall} {i : Nat} {c1 x : IncrCall}
    (h : x ∈ cs.set i c1) : x ∈ cs ∨ x = c1 :=
  List.mem_or_eq_of_mem_set h

/-- Every atomic operation of every caller completes and keeps the invariant. -/
theorem stepCaller_Interleaved {ds : List Int} {st : RateCounter × List IncrCall} (i : Nat)
    (h : Interleaved ds st) : ∃ st1, stepCaller st i = .ok st1 ∧ Interleaved ds st1 := by
  obtain ⟨r, cs⟩ := st
  obtain ⟨hcur, hlen, hsum, hval, hidx, hflag⟩ := h
  simp only at hcur hlen hsum hval hidx hflag
  cases hc : cs[i]? with
  | none => exact ⟨(r, cs), by simp only [stepCaller, hc], hcur, hlen, hsum, hval, hidx, hflag⟩
  | some c =>
    have hmem : c ∈ cs := List.mem_iff_getElem?.mpr ⟨i, hc⟩
    obtain ⟨v, pc, ix⟩ := c
    rcases pc with _ | _ | _ | _ | n
    · -- the atomic add to the total
      refine ⟨({ r with counter := r.counter.Incr v }, cs.set i ⟨v, 1, ix⟩),
        by simp only [stepCaller, hc, IncrCall.step], hcur, hlen, ?_, ?_, ?_, ?_⟩
      · show wrap64 (r.counter.value + v) = wrap64 (addedSum (cs.set i ⟨v, 1, ix⟩))
        rw [addedSum_set _ hc, hsum]
        simp only [Nat.zero_add, Nat.le_refl, if_true]
        unfold wrap64
        simp
        omega
      · show (cs.set i ⟨v, 1, ix⟩).map IncrCall.val = ds
        rw [map_val_set ⟨v, 1, ix⟩ hc rfl]
        exact hval
      · intro x hx hpc
        rcases mem_set_cases hx with h1 | h1
        · exact hidx x h1 hpc
        · rw [h1] at hpc
          have hpc2 : (2 : Nat) ≤ 1 := hpc
          omega
      · rcases hflag with ⟨h1, h2, h3⟩ | h1
        · refine Or.inl ⟨h1, h2, ?_⟩
          intro x hx
          rcases mem_set_cases hx with h4 | h4
          · exact h3 x h4
          · subst h4
            exact Nat.le_of_ble_eq_true rfl
        · exact Or.inr h1
    · -- the atomic load of the index
      refine ⟨(r, cs.set i ⟨v, 2, r.current⟩),
        by simp only [stepCaller, hc, IncrCall.step], hcur, hlen, ?_, ?_, ?_, ?_⟩
      · show r.counter.value = wrap64 (addedSum (cs.set i ⟨v, 2, r.current⟩))
        rw [addedSum_set _ hc, hsum]
        simp
      · show (cs.set i ⟨v, 2, r.current⟩).map IncrCall.val = ds
        rw [map_val_set ⟨v, 2, r.current⟩ hc rfl]
        exact hval
      · intro x hx hpc
        rcases mem_set_cases hx with h1 | h1
        · exact hidx x h1 hpc
        · rw [h1]
          exact hcur
      · rcases hflag with ⟨h1, h2, h3⟩ | h1
        · refine Or.inl ⟨h1, h2, ?_⟩
          intro x hx
          rcases mem_set_cases hx with h4 | h4
          · exact h3 x h4
          · subst h4
            exact Nat.le_of_ble_eq_true rfl
        · exact Or.inr h1
    · -- the atomic add to the bucket
      have hix : ix = 0 := hidx _ hmem (Nat.le_refl 2)
      subst hix
      obtain ⟨p, hp⟩ : ∃ p, r.partials[0]? = some p :=
        ⟨_, List.getElem?_eq_getElem (by omega)⟩
      have hindex : index r.partials 0 = some p := by
        rw [show (0 : Int) = ((0 : Nat) : Int) from rfl, index_natCast]
        exact hp
      refine ⟨({ r with partials := r.partials.set (0 : Int).toNat (p.Incr v) },
          cs.set i ⟨v, 3, 0⟩),
        by simp only [stepCaller, hc, IncrCall.step, hindex], hcur, ?_, ?_, ?_, ?_, ?_⟩
      · show (r.partials.set (0 : Int).toNat (p.Incr v)).length = 20
        rw [List.length_set]
        exact hlen
      · show r.counter.value = wrap64 (addedSum (cs.set i ⟨v, 3, 0⟩))
        rw [addedSum_set _ hc, hsum]
        simp
      · show (cs.set i ⟨v, 3, 0⟩).map IncrCall.val = ds
        rw [map_val_set ⟨v, 3, 0⟩ hc rfl]
        exact hval
      · intro x hx hpc
        rcases mem_set_cases hx with h1 | h1
        · exact hidx x h1 hpc
        · rw [h1]
      · rcases hflag with ⟨h1, h2, h3⟩ | h1
        · refine Or.inl ⟨h1, h2, ?_⟩
          intro x hx
          rcases mem_set_cases hx with h4 | h4
          · exact h3 x h4
          · subst h4
            exact Nat.le_of_ble_eq_true rfl
        · exact Or.inr h1
    · -- `run`
      refine ⟨(r.run, cs.set i ⟨v, 4, ix⟩),
        by simp only [stepCaller, hc, IncrCall.step], ?_, ?_, ?_, ?_, ?_, ?_⟩
      · show r.run.current = 0
        rw [run_current]; exact hcur
      · show r.run.partials.length = 20
        rw [run_partials]; exact hlen
      · show r.run.counter.value = wrap64 (addedSum (cs.set i ⟨v, 4, ix⟩))
        rw [run_counter, addedSum_set _ hc, hsum]
        simp
      · show (cs.set i ⟨v, 4, ix⟩).map IncrCall.val = ds
        rw [map_val_set ⟨v, 4, ix⟩ hc rfl]
        exact hval
      · intro x hx hpc
        rcases mem_set_cases hx with h1 | h1
        · exact hidx x h1 hpc
        · rw [h1]
          exact hidx ⟨v, 3, ix⟩ hmem (Nat.le_of_ble_eq_true rfl)
      · refine Or.inr ?_
        rcases hflag with ⟨h1, h2, _⟩ | ⟨h1, h2⟩
        · rw [run_of_zero r h1]
          exact ⟨rfl, by show r.goroutines + 1 = 1; rw [h2]⟩
        · rw [run_of_ne_zero r (by rw [h1]; decide)]
          exact ⟨h1, h2⟩
    · -- the call has returned
      refine ⟨(r, cs.set i ⟨v, n + 4, ix⟩),
        by simp only [stepCaller, hc, IncrCall.step], hcur, hlen, ?_, ?_, ?_, ?_⟩
      · show r.counter.value = wrap64 (addedSum (cs.set i ⟨v, n + 4, ix⟩))
        rw [set_of_getElem? hc]
        exact hsum
      · show (cs.set i ⟨v, n + 4, ix⟩).map IncrCall.val = ds
        rw [set_of_getElem? hc]
        exact hval
      · rw [set_of_getElem? hc]
        exact hidx
      · rw [set_of_getElem? hc]
        exact hflag

theorem runSchedule_Interleaved {ds : List Int} (sched : List Nat)
    {st : RateCounter × List IncrCall} (h : Interleaved ds st) :
    ∃ st1, runSchedule st sched = .ok st1 ∧ Interleaved ds st1 := by
  induction sched generalizing st with
  | nil => exact ⟨st, rfl, h⟩
  | cons i rest ih =>
    obtain ⟨st1, h1, hi1⟩ := stepCaller_Interleaved i h
    obtain ⟨st2, h2, hi2⟩ := ih hi1
    refine ⟨st2, ?_, hi2⟩
    rw [runSchedule, h1]
    exact h2

theorem addedSum_startCalls (ds : List Int) : addedSum (startCalls ds) = 0 := by
  unfold addedSum startCalls
  induction ds with
  | nil => rfl
  | cons d rest ih =>
    rw [List.map_cons, List.map_cons, List.sum_cons, ih]
    rfl

theorem map_val_startCalls (ds : List Int) : (startCalls ds).map IncrCall.val = ds := by
  unfold startCalls
  induction ds with
  | nil => rfl
  | cons d rest ih => rw [List.map_cons, List.map_cons, ih]

theorem addedSum_of_returned (cs : List IncrCall) (h : ∀ c ∈ cs, c.pc = 4) :
    addedSum cs = (cs.map IncrCall.val).sum := by
  unfold addedSum
  induction cs with
  | nil => rfl
  | cons c rest ih =>
    rw [List.map_cons, List.map_cons, List.sum_cons, List.sum_cons,
      ih (fun x hx => h x (List.mem_cons_of_mem _ hx)), h c (List.mem_cons_self _ _)]
    rfl

/-- C15: for every list of deltas, one concurrent caller of `Incr` per delta,
and every interleaving of the atomic operations of these calls on a new
counter (no rotation tick in between), every operation completes; once all
calls have returned, `Rate()` is the wrapping sum of all the deltas, and, when
there is at least one caller, exactly one rotation goroutine has been
started. -/
theorem concurrent_Incr_sum (ctx : Bool) (intrvl : Int) (ds : List Int) (sched : List Nat) :
    ∃ r0 r cs, NewRateCounter ctx intrvl = .ok r0 ∧
      runSchedule (r0, startCalls ds) sched = .ok (r, cs) ∧
      cs.map IncrCall.val = ds ∧
      ((∀ c ∈ cs, c.pc = 4) →
        r.Rate = wrap64 ds.sum ∧ (ds ≠ [] → r.goroutines = 1 ∧ r.running = 1)) := by
  have hinit : Interleaved ds
      (RateCounter.mk ⟨0⟩ intrvl 20 (List.replicate 20 ⟨0⟩) 0 0 ctx 0, startCalls ds) := by
    refine ⟨rfl, rfl, ?_, map_val_startCalls ds, ?_, Or.inl ⟨rfl, rfl, ?_⟩⟩
    · show (0 : Int) = wrap64 (addedSum (startCalls ds))
      rw [addedSum_startCalls]
      rfl
    · intro c hc hpc
      unfold startCalls at hc
      obtain ⟨d, _, rfl⟩ := List.mem_map.mp hc
      rfl
    · intro c hc
      unfold startCalls at hc
      obtain ⟨d, _, rfl⟩ := List.mem_map.mp hc
      exact Nat.le_of_ble_eq_true rfl
  obtain ⟨⟨r, cs⟩, hrun, hcur, hlen, hsum, hval, hidx, hflag⟩ :=
    runSchedule_Interleaved sched hinit
  refine ⟨_, r, cs, NewRateCounter_eq ctx intrvl, hrun, hval, ?_⟩
  intro hall
  constructor
  · show r.counter.value = wrap64 ds.sum
    have h1 : r.counter.value = wrap64 (addedSum cs) := hsum
    have h2 : cs.map IncrCall.val = ds := hval
    rw [h1, addedSum_of_returned cs hall, h2]
  · intro hne
    have hflag2 : (r.running = 0 ∧ r.goroutines = 0 ∧ ∀ c ∈ cs, c.pc ≤ 3) ∨
        (r.running = 1 ∧ r.goroutines = 1) := hflag
    have h2 : cs.map IncrCall.val = ds := hval
    rcases hflag2 with ⟨_, _, h3⟩ | ⟨h4, h5⟩
    · exfalso
      cases cs with
      | nil => exact hne h2.symm
      | cons c rest =>
        have h6 := h3 c (List.mem_cons_self _ _)
        have h7 := hall c (List.mem_cons_self _ _)
        omega
    · exact ⟨h5, h4⟩

/-- Witness of C15: three callers with deltas 1, 2 and 3 whose operations
alternate; all three return, `Rate()` is 6 and one goroutine runs. -/
theorem concurrent_Incr_sum_witness :
    runSchedule (RateCounter.mk ⟨0⟩ 50 20 (List.replicate 20 ⟨0⟩) 0 0 false 0,
        startCalls [1, 2, 3]) [0, 1, 2, 2, 1, 0, 1, 0, 2, 2, 0, 1]
      = .ok (RateCounter.mk ⟨6⟩ 50 20 (⟨6⟩ :: List.replicate 19 ⟨0⟩) 0 1 false 1,
        [⟨1, 4, 0⟩, ⟨2, 4, 0⟩, ⟨3, 4, 0⟩]) ∧
    (∃ r0 r cs, NewRateCounter false 50 = .ok r0 ∧
      runSchedule (r0, startCalls [1, 2, 3]) [0, 1, 2, 2, 1, 0, 1, 0, 2, 2, 0, 1] = .ok (r, cs) ∧
      cs.map IncrCall.val = [1, 2, 3] ∧
      ((∀ c ∈ cs, c.pc = 4) →
        r.Rate = wrap64 ([1, 2, 3] : List Int).sum ∧
          (([1, 2, 3] : List Int) ≠ [] → r.goroutines = 1 ∧ r.running = 1))) :=
  ⟨by decide, concurrent_Incr_sum false 50 [1, 2, 3] [0, 1, 2, 2, 1, 0, 1, 0, 2, 2, 0, 1]⟩
